import Mathlib

/-!
Verification of the `gms-iei-api` tooling scripts
(`tools/fix_combined_openapi.py` and `tools/openapi_complexity.py`)
against their natural-language specification.

The parsed YAML/JSON document tree is modelled by the inductive type
`PVal` below (mappings are association lists preserving insertion order,
exactly as Python dictionaries preserve it).  Pure functions of the two
scripts are translated definition-by-definition; in-place mutation is
rendered as state passing, `deepcopy` of a value is the identity at the
value level (a separate arena model is used where object identity itself
matters, for `schema_depth` and for the aliasing analysis).
YAML scalars are modelled as strings, integers, booleans and null,
covering every value the analysed claims exercise.
-/

/-- Document-tree values: the result of parsing YAML/JSON.
Mappings are insertion-ordered association lists, exactly like Python
dicts; Python `None` is `null`. -/
inductive PVal where
  | null : PVal
  | bool : Bool → PVal
  | int : Int → PVal
  | str : String → PVal
  | list : List PVal → PVal
  | dict : List (String × PVal) → PVal

abbrev Entries := List (String × PVal)

/-- Python `d.get(k)` / `d[k]` on a dict: first (unique) binding of `k`. -/
def lookupKey (d : Entries) (k : String) : Option PVal :=
  match d with
  | [] => none
  | (k', v) :: rest => if k' = k then some v else lookupKey rest k

/-- Python `k in d`. -/
def hasKey (d : Entries) (k : String) : Bool :=
  match d with
  | [] => false
  | (k', _) :: rest => k' = k || hasKey rest k

/-- Python `d[k] = v`: replace the binding in place if the key exists,
otherwise append it (dicts keep insertion order). -/
def setKey (d : Entries) (k : String) (v : PVal) : Entries :=
  match d with
  | [] => [(k, v)]
  | (k', v') :: rest => if k' = k then (k', v) :: rest else (k', v') :: setKey rest k v

/-- Python `d.setdefault(k, v)`. -/
def setdefaultKey (d : Entries) (k : String) (v : PVal) : Entries :=
  if hasKey d k then d else d ++ [(k, v)]

/-- Python `d.pop(k, None)`: remove the binding of `k` if present. -/
def popKey (d : Entries) (k : String) : Entries :=
  match d with
  | [] => []
  | (k', v') :: rest => if k' = k then rest else (k', v') :: popKey rest k

/-- Python `v is None`. -/
def PVal.isNull : PVal → Bool
  | .null => true
  | _ => false

/-- Python `isinstance(v, dict)`. -/
def PVal.isDict : PVal → Bool
  | .dict _ => true
  | _ => false

/-- Python `isinstance(v, list)`. -/
def PVal.isList : PVal → Bool
  | .list _ => true
  | _ => false

mutual
/-- Structural equality of values.  It models equality of Python `repr`
strings, which is the dedup key used by `deep_merge` for list merging
(`repr` is injective on the modelled value domain and sensitive to dict
insertion order, just as this structural equality is). -/
def pvalEq : PVal → PVal → Bool
  | .null, .null => true
  | .bool a, .bool b => a == b
  | .int a, .int b => a == b
  | .str a, .str b => a == b
  | .list a, .list b => pvalEqList a b
  | .dict a, .dict b => pvalEqEntries a b
  | _, _ => false

def pvalEqList : List PVal → List PVal → Bool
  | [], [] => true
  | a :: as, b :: bs => pvalEq a b && pvalEqList as bs
  | _, _ => false

def pvalEqEntries : Entries → Entries → Bool
  | [], [] => true
  | (ka, va) :: as, (kb, vb) :: bs => ka == kb && pvalEq va vb && pvalEqEntries as bs
  | _, _ => false
end

/-- List merge used by `deep_merge` (source lines 61-68): append the items
of `src` that are not already present, dedup keyed on `repr`, first
occurrence wins, order preserved. -/
def mergeListDedup (dl sl : List PVal) : List PVal :=
  sl.foldl (fun acc x => if acc.any (fun y => pvalEq y x) then acc else acc ++ [x]) dl

/-- `deep_merge` from `tools/fix_combined_openapi.py` (lines 49-72), in
value-passing form: keys bound to `None` in `src` are skipped; keys absent
from `dst` are added (a deep copy equals the value itself at value level);
dict values merge recursively; list values concatenate with dedup; in every
other case the existing `dst` value is kept silently. -/
def deep_merge (dst : Entries) : Entries → Entries
  | [] => dst
  | (k, v) :: rest =>
    if v.isNull then deep_merge dst rest
    else
      match lookupKey dst k with
      | none => deep_merge (dst ++ [(k, v)]) rest
      | some dv =>
        match dv, v with
        | PVal.dict dd, PVal.dict sd => deep_merge (setKey dst k (PVal.dict (deep_merge dd sd))) rest
        | PVal.list dl, PVal.list sl => deep_merge (setKey dst k (PVal.list (mergeListDedup dl sl))) rest
        | _, _ => deep_merge dst rest

/-- Python `d.get(k)` as used on tag/server entries: a missing key gives
`None`, which the surrounding code compares like an explicit null. -/
def pyGet (d : Entries) (k : String) : PVal :=
  (lookupKey d k).getD PVal.null

/-- `s.startswith(p)` over the character lists (kernel-reducible form of
the library operation). -/
def strStartsWith (s p : String) : Bool :=
  s.data.take p.data.length == p.data

/-- `s.lower()` over the character lists. -/
def strToLower (s : String) : String :=
  String.mk (s.data.map Char.toLower)

/-- Python `str(v)` for the modelled scalars.  The merger only asks
whether the result starts with `"3.1"`; the `repr`-like renderings of
lists and dicts begin with `"["` / `"{"` and therefore never do, so a
one-character stand-in is faithful for that use. -/
def pyStr : PVal → String
  | .str s => s
  | .int n => toString n
  | .bool true => "True"
  | .bool false => "False"
  | .null => "None"
  | .list _ => "["
  | .dict _ => "\x7b"

/-- The nine standard OAS 3.0.x component subsection names initialised by
`merge_docs` (source lines 91-101), in source order. -/
def standardComponentKeys : List String :=
  ["schemas", "parameters", "responses", "requestBodies", "headers",
   "securitySchemes", "examples", "links", "callbacks"]

/-- One step of the `components` merge loop (source lines 118-121): for a
dict-valued subsection of a later document, ensure the subsection exists in
the result and deep-merge into it.  `TypeError` marks the exception Python
raises when `deep_merge` iterates keys against a non-dict destination with
a nonempty source. -/
def mergeComponentsStep (acc : Entries) (ckcv : String × PVal) : Except String Entries :=
  match ckcv.2 with
  | PVal.dict cv =>
    match lookupKey acc "components" with
    | some (PVal.dict rc) =>
      match lookupKey (setdefaultKey rc ckcv.1 (PVal.dict [])) ckcv.1 with
      | some (PVal.dict target) =>
        Except.ok (setKey acc "components"
          (PVal.dict (setKey (setdefaultKey rc ckcv.1 (PVal.dict [])) ckcv.1
            (PVal.dict (deep_merge target cv)))))
      | some _ =>
        -- deep_merge against a non-dict destination raises as soon as the
        -- source has a key; an empty source is a no-op
        match cv with
        | [] => Except.ok (setKey acc "components" (PVal.dict (setdefaultKey rc ckcv.1 (PVal.dict []))))
        | _ :: _ => Except.error "TypeError"
      | none => Except.error "KeyError"
    | some _ => Except.error "AttributeError"
    | none => Except.error "KeyError"
  | _ => Except.ok acc

/-- Merge of one later document's `components` into the accumulated result
(source lines 117-121). -/
def mergeComponents (acc : Entries) (dc : Entries) : Except String Entries :=
  dc.foldlM mergeComponentsStep acc

/-- Append the incoming entries whose identity key is not yet present,
threading the set of seen identity values (the shared shape of the `tags`
and `servers` loops, source lines 126-130 and 135-139; Python's
`t.get(key)` yields `None` both for a missing key and an explicit null). -/
def appendByIdentity (idKey : String) (cur : List PVal) (incoming : List PVal) : List PVal :=
  (incoming.foldl
    (fun (st : List PVal × List PVal) t =>
      match t with
      | PVal.dict td =>
        if st.2.any (fun o => pvalEq o (pyGet td idKey)) then st
        else (st.1 ++ [t], st.2 ++ [pyGet td idKey])
      | _ => st)
    (cur, cur.foldl (fun ns t => match t with | PVal.dict td => ns ++ [pyGet td idKey] | _ => ns) [])).1

/-- Merge of one later document's `tags` list (source lines 124-130):
append tag dicts whose `name` is not among the names already present.
When the accumulated `tags` value is not a list, Python raises as soon as
iteration or the first append touches it; the branches mirror that
(iterating a string yields characters and a dict yields string keys, none
a dict entry, so the name set stays empty and the first tag dict to
append raises `AttributeError`). -/
def mergeTags (acc : Entries) (ts : List PVal) : Except String Entries :=
  match lookupKey (setdefaultKey acc "tags" (PVal.list [])) "tags" with
  | some (PVal.list rts) =>
    Except.ok (setKey (setdefaultKey acc "tags" (PVal.list [])) "tags"
      (PVal.list (appendByIdentity "name" rts ts)))
  | some (PVal.str _) | some (PVal.dict _) =>
    match ts.any (fun t => t.isDict) with
    | true => Except.error "AttributeError"
    | false => Except.ok (setdefaultKey acc "tags" (PVal.list []))
  | some _ => Except.error "TypeError"
  | none => Except.error "KeyError"

/-- Merge of one later document's `servers` list (source lines 133-139),
deduplicated by `url` exactly as `mergeTags` dedups by `name`. -/
def mergeServers (acc : Entries) (ss : List PVal) : Except String Entries :=
  match lookupKey (setdefaultKey acc "servers" (PVal.list [])) "servers" with
  | some (PVal.list rss) =>
    Except.ok (setKey (setdefaultKey acc "servers" (PVal.list [])) "servers"
      (PVal.list (appendByIdentity "url" rss ss)))
  | some (PVal.str _) | some (PVal.dict _) =>
    match ss.any (fun t => t.isDict) with
    | true => Except.error "AttributeError"
    | false => Except.ok (setdefaultKey acc "servers" (PVal.list []))
  | some _ => Except.error "TypeError"
  | none => Except.error "KeyError"

/-- Merge of one later document into the accumulated result: the body of
the `for doc in docs[1:]` loop of `merge_docs` (source lines 109-139).
Non-dict documents are skipped; each of the four sections runs only when
the previous one did not raise. -/
def mergeOneDoc (acc : Entries) (doc : PVal) : Except String Entries :=
  match doc with
  | PVal.dict dd =>
    match
      (match lookupKey dd "paths" with
       | some (PVal.dict dp) =>
         (match lookupKey acc "paths" with
          | some (PVal.dict rp) => Except.ok (setKey acc "paths" (PVal.dict (deep_merge rp dp)))
          | some _ =>
            match dp with
            | [] => Except.ok acc
            | _ :: _ => Except.error "TypeError"
          | none => Except.error "KeyError")
       | _ => Except.ok acc) with
    | Except.error e => Except.error e
    | Except.ok acc1 =>
      match
        (match lookupKey dd "components" with
         | some (PVal.dict dc) => mergeComponents acc1 dc
         | _ => Except.ok acc1) with
      | Except.error e => Except.error e
      | Except.ok acc2 =>
        match
          (match lookupKey dd "tags" with
           | some (PVal.list ts) => mergeTags acc2 ts
           | _ => Except.ok acc2) with
        | Except.error e => Except.error e
        | Except.ok acc3 =>
          match lookupKey dd "servers" with
          | some (PVal.list ss) => mergeServers acc3 ss
          | _ => Except.ok acc3
  | _ => Except.ok acc

/-- The initial baseline of `merge_docs` (source lines 80-88): the first
document when it is a mapping (else empty), with the four required
top-level sections defaulted. -/
def mergeInit (d0 : PVal) : Entries :=
  setdefaultKey
    (setdefaultKey
      (setdefaultKey
        (setdefaultKey (match d0 with | PVal.dict d => d | _ => [])
          "openapi" (PVal.str "3.0.3"))
        "info" (PVal.dict [("title", PVal.str "Combined OpenAPI"), ("version", PVal.str "0.0.0")]))
      "paths" (PVal.dict []))
    "components" (PVal.dict [])

/-- Lines 141-143 of the source: strip `pathItems` again when the
effective version is not 3.1.x. -/
def stripPathItems (openapi_ver : String) (result : Entries) : Entries :=
  if strStartsWith openapi_ver "3.1" then result
  else
    match lookupKey result "components" with
    | some (PVal.dict cs) => setKey result "components" (PVal.dict (popKey cs "pathItems"))
    | _ => result

/-- Lines 146-152 of the source: prune empty component subsections,
keeping the three critical ones, iterating over a snapshot of the keys. -/
def pruneComponents (result : Entries) : Entries :=
  match lookupKey result "components" with
  | some (PVal.dict cs) =>
    let pruned := (cs.map Prod.fst).foldl
      (fun c k =>
        match lookupKey c k with
        | some (PVal.dict v) =>
          if v.isEmpty && !(k ∈ ["schemas", "parameters", "responses"]) then popKey c k else c
        | _ => c)
      cs
    setKey result "components" (PVal.dict pruned)
  | _ => result

/-- `merge_docs` from `tools/fix_combined_openapi.py` (lines 75-154).
Raising is modelled by `Except.error` carrying the Python exception name:
an empty input raises `ValueError`, and a non-dict `components` value in
the baseline makes line 102's `setdefault` raise `AttributeError`. -/
def merge_docs (docs : List PVal) : Except String PVal :=
  match docs with
  | [] => Except.error "ValueError: No YAML documents to merge"
  | d0 :: rest =>
    let result := mergeInit d0
    match lookupKey result "components" with
    | some (PVal.dict comps) =>
      let comps := standardComponentKeys.foldl (fun c k => setdefaultKey c k (PVal.dict [])) comps
      let openapi_ver := pyStr ((lookupKey result "openapi").getD (PVal.str "3.0.3"))
      let comps :=
        if strStartsWith openapi_ver "3.1" then setdefaultKey comps "pathItems" (PVal.dict []) else comps
      let result := setKey result "components" (PVal.dict comps)
      match rest.foldlM mergeOneDoc result with
      | Except.ok merged =>
        Except.ok (PVal.dict (pruneComponents (stripPathItems openapi_ver merged)))
      | Except.error e => Except.error e
    | some _ => Except.error "AttributeError"
    | none => Except.error "KeyError"

/-- Match of the external-reference pattern of `rewrite_internal_refs`
(source line 165): at least one leading non-`#` character, then `#/`,
then at least one non-newline character (a single trailing newline is
tolerated by `$` and excluded from the captured group).  Returns the
second capture group on success. -/
def refMatchCore (l : List Char) : Option (List Char) :=
  let p := l.takeWhile (fun c => c != '#')
  if p.isEmpty then none
  else
    match l.drop p.length with
    | '#' :: '/' :: t =>
      let t' := if t.getLast? == some '\n' then t.dropLast else t
      if t'.isEmpty then none
      else if t'.any (fun c => c == '\n') then none
      else some t'
    | _ => none

/-- The single-string rewrite performed by `rewrite_internal_refs`:
`<nonempty-path>#/<pointer>` becomes `#/<pointer>`; anything else is
returned unchanged. -/
def rewriteRef (s : String) : String :=
  match refMatchCore s.data with
  | some t => String.mk ('#' :: '/' :: t)
  | none => s

mutual
/-- `rewrite_internal_refs` from `tools/fix_combined_openapi.py`
(lines 157-172), in value-passing form: rewrite the `$ref` entry of every
dict when it is a string, then recurse into all values. -/
def rewrite_internal_refs : PVal → PVal
  | .dict entries => .dict (rewriteEntries entries)
  | .list l => .list (rewriteList l)
  | v => v

def rewriteEntries : Entries → Entries
  | [] => []
  | (k, v) :: rest =>
    -- the `$ref` value is rewritten first when it is a string; the traversal
    -- then revisits it, which is the identity on strings, so the rewrite and
    -- the recursion fuse
    (k,
      match k == "$ref", v with
      | true, PVal.str s => PVal.str (rewriteRef s)
      | _, _ => rewrite_internal_refs v) :: rewriteEntries rest

def rewriteList : List PVal → List PVal
  | [] => []
  | x :: xs => rewrite_internal_refs x :: rewriteList xs
end

mutual
/-- `find_refs` from `tools/openapi_complexity.py` (lines 73-83): collect
every string held under a `$ref` key, in document order (the node's own
`$ref` first, then the values in insertion order). -/
def find_refs : PVal → List String
  | .dict entries =>
    (match lookupKey entries "$ref" with
     | some (PVal.str s) => [s]
     | _ => []) ++ findRefsEntries entries
  | .list l => findRefsList l
  | _ => []

def findRefsEntries : Entries → List String
  | [] => []
  | (_, v) :: rest => find_refs v ++ findRefsEntries rest

def findRefsList : List PVal → List String
  | [] => []
  | x :: xs => find_refs x ++ findRefsList xs
end

/-- Position `i` of `text` is a match start of the pattern
`(?m)^openapi:\s*`: at the start of a line (offset 0 or just after a
newline) and immediately followed by the literal `openapi:`.  The
trailing `\s*` never hides a later line-start match, because a candidate
start begins with the non-whitespace `o`, so the match starts found by
the scanner are exactly these positions. -/
def isStartAt (text : List Char) (i : Nat) : Bool :=
  (i == 0 || text.get? (i - 1) == some '\n') && (text.drop i).take 8 == "openapi:".data

/-- All match-start indices of `(?m)^openapi:\s*` in ascending order
(source line 32). -/
def startsOf (text : List Char) : List Nat :=
  (List.range text.length).filter (isStartAt text)

/-- Python `chunk.strip("\n")`: remove leading and trailing newline
characters. -/
def stripNl (l : List Char) : List Char :=
  ((l.dropWhile (fun c => c == '\n')).reverse.dropWhile (fun c => c == '\n')).reverse

/-- `split_concatenated_docs` from `tools/fix_combined_openapi.py`
(lines 26-46): no match gives the whole text as one fragment; otherwise
one chunk per match, the first chunk taken from the beginning of the
text, each later chunk from its match start to the next match start (the
last to the end of text), every chunk stripped of leading/trailing
newline characters. -/
def split_concatenated_docs (text : List Char) : List (List Char) :=
  let starts := startsOf text
  if starts.isEmpty then [text]
  else
    (List.range starts.length).map (fun i =>
      let e := (starts.get? (i + 1)).getD text.length
      if i == 0 then stripNl (text.take e)
      else
        let s := starts.getD i 0
        stripNl ((text.drop s).take (e - s)))

/-! Definitions for `tools/openapi_complexity.py`. -/

/-- The HTTP method names recognised by the analyzer (source line 42). -/
def HTTP_METHODS : List String :=
  ["get", "put", "post", "delete", "options", "head", "patch", "trace"]

/-- The idiom `x.get(k, {}) or {}` followed by a mapping traversal:
a missing, empty or null value becomes the empty mapping.  (A truthy
non-mapping would raise in the two unguarded source occurrences and is
skipped by an `isinstance` check in all the others; it is treated as
empty here, and none of the settled claims reaches that corner.) -/
def dictOrEmpty : Option PVal → Entries
  | some (PVal.dict d) => d
  | _ => []

/-- `collect_schema_defs` (source lines 64-67): the dict-valued entries of
`components.schemas`. -/
def collect_schema_defs (spec : Entries) : Entries :=
  let components := dictOrEmpty (lookupKey spec "components")
  let schemas := dictOrEmpty (lookupKey components "schemas")
  schemas.filter (fun kv => kv.2.isDict)

/-- `REF_RE` (source line 70): `^#/components/schemas/([^/]+)$` — returns
the captured schema name when the reference matches.  (`$` also accepts a
trailing newline, but then the greedy `[^/]+` has already absorbed it, so
the group is always the whole remainder.) -/
def schemaRefName (s : String) : Option String :=
  let pre := "#/components/schemas/".data
  let l := s.data
  if l.take pre.length = pre then
    let rest := l.drop pre.length
    if rest.length > 0 && !(rest.contains '/') then some (String.mk rest) else none
  else none

/-- The `properties` mapping of a schema node when it is a mapping, else
empty (the idiom at source lines 508 and 229). -/
def propsOf (d : Entries) : Entries :=
  match lookupKey d "properties" with
  | some (PVal.dict p) => p
  | _ => []

/-- Media-type entries of a `content` mapping carrying a dict `schema`,
yielding `(mediaType, schema)` pairs (the repeated pattern of
`iter_schema_nodes`). -/
def contentSchemas (obj : Entries) : List (String × PVal) :=
  (dictOrEmpty (lookupKey obj "content")).foldl
    (fun acc mt =>
      match mt.2 with
      | PVal.dict mtObj =>
        match lookupKey mtObj "schema" with
        | some (PVal.dict sd) => acc ++ [(mt.1, PVal.dict sd)]
        | _ => acc
      | _ => acc) []

/-- Parameter-list schemas: for each index `i` with a dict parameter
carrying a dict `schema`, the pair `(i, schema)` (source lines 150-153 and
160-163). -/
def paramSchemas (params : List PVal) : List (Nat × PVal) :=
  (params.enum.foldl
    (fun acc pi =>
      match pi.2 with
      | PVal.dict prm =>
        match lookupKey prm "schema" with
        | some (PVal.dict sd) => acc ++ [(pi.1, PVal.dict sd)]
        | _ => acc
      | _ => acc) [])

/-- `iter_schema_nodes` from `tools/openapi_complexity.py` (lines 86-181):
every `(json_pointer, schema_dict)` pair of the specification, in source
order: component schemas, component parameter schemas, request-body and
response media-type schemas, header schemas, then per path the path-level
parameter schemas and per operation the parameter, request-body and
response schemas. -/
def iter_schema_nodes (spec : Entries) : List (String × PVal) :=
  let comps := dictOrEmpty (lookupKey spec "components")
  let fromSchemas :=
    (dictOrEmpty (lookupKey comps "schemas")).foldl
      (fun acc nv =>
        match nv.2 with
        | PVal.dict sd => acc ++ [("#/components/schemas/" ++ nv.1, PVal.dict sd)]
        | _ => acc) []
  let fromParams :=
    (dictOrEmpty (lookupKey comps "parameters")).foldl
      (fun acc nv =>
        match nv.2 with
        | PVal.dict param =>
          match lookupKey param "schema" with
          | some (PVal.dict sd) =>
            acc ++ [("#/components/parameters/" ++ nv.1 ++ "/schema", PVal.dict sd)]
          | _ => acc
        | _ => acc) []
  let fromRequestBodies :=
    (dictOrEmpty (lookupKey comps "requestBodies")).foldl
      (fun acc nv =>
        match nv.2 with
        | PVal.dict rb =>
          acc ++ (contentSchemas rb).map
            (fun ms => ("#/components/requestBodies/" ++ nv.1 ++ "/content/" ++ ms.1 ++ "/schema", ms.2))
        | _ => acc) []
  let fromResponses :=
    (dictOrEmpty (lookupKey comps "responses")).foldl
      (fun acc nv =>
        match nv.2 with
        | PVal.dict resp =>
          acc ++ (contentSchemas resp).map
            (fun ms => ("#/components/responses/" ++ nv.1 ++ "/content/" ++ ms.1 ++ "/schema", ms.2))
        | _ => acc) []
  let fromHeaders :=
    (dictOrEmpty (lookupKey comps "headers")).foldl
      (fun acc nv =>
        match nv.2 with
        | PVal.dict hdr =>
          match lookupKey hdr "schema" with
          | some (PVal.dict sd) =>
            acc ++ [("#/components/headers/" ++ nv.1 ++ "/schema", PVal.dict sd)]
          | _ => acc
        | _ => acc) []
  let fromPaths :=
    (dictOrEmpty (lookupKey spec "paths")).foldl
      (fun acc pe =>
        match pe.2 with
        | PVal.dict item =>
          let pth := pe.1
          let pathParams :=
            match lookupKey item "parameters" with
            | some (PVal.list prms) =>
              (paramSchemas prms).map
                (fun is => ("#/paths/" ++ pth ++ "/parameters/" ++ toString is.1 ++ "/schema", is.2))
            | _ => []
          let opNodes := item.foldl
            (fun acc2 mo =>
              if strToLower mo.1 ∈ HTTP_METHODS then
                match mo.2 with
                | PVal.dict op =>
                  let method := mo.1
                  let opParams :=
                    match lookupKey op "parameters" with
                    | some (PVal.list prms) =>
                      (paramSchemas prms).map
                        (fun is =>
                          ("#/paths/" ++ pth ++ "/" ++ method ++ "/parameters/" ++ toString is.1 ++ "/schema", is.2))
                    | _ => []
                  let rbNodes :=
                    match lookupKey op "requestBody" with
                    | some (PVal.dict rb) =>
                      (contentSchemas rb).map
                        (fun ms =>
                          ("#/paths/" ++ pth ++ "/" ++ method ++ "/requestBody/content/" ++ ms.1 ++ "/schema", ms.2))
                    | _ => []
                  let respNodes :=
                    (dictOrEmpty (lookupKey op "responses")).foldl
                      (fun acc3 ce =>
                        match ce.2 with
                        | PVal.dict resp =>
                          acc3 ++ (contentSchemas resp).map
                            (fun ms =>
                              ("#/paths/" ++ pth ++ "/" ++ method ++ "/responses/" ++ ce.1 ++
                                "/content/" ++ ms.1 ++ "/schema", ms.2))
                        | _ => acc3) []
                  acc2 ++ opParams ++ rbNodes ++ respNodes
                | _ => acc2
              else acc2) []
          acc ++ pathParams ++ opNodes
        | _ => acc) []
  fromSchemas ++ fromParams ++ fromRequestBodies ++ fromResponses ++ fromHeaders ++ fromPaths

/-- First-binding lookup in a graph's adjacency list. -/
def lookupNode (g : List (String × List String)) (n : String) : Option (List String) :=
  match g with
  | [] => none
  | (k, es) :: rest => if k = n then some es else lookupNode rest n

/-- Python `graph.get(node, ())`: the successor list of a vertex, empty
for vertices outside the mapping. -/
def edgesOf (g : List (String × List String)) (n : String) : List String :=
  (lookupNode g n).getD []

/-- `schema_graph` (source lines 184-192): one vertex per named schema;
the successors of `name` are the distinct `#/components/schemas/<t>`
targets occurring in its definition (a Python set, modelled as a
first-occurrence-ordered dedup list — only membership is consumed). -/
def schema_graph (schemas : Entries) : List (String × List String) :=
  schemas.map (fun nv =>
    (nv.1,
      (find_refs nv.2).foldl
        (fun acc r =>
          match schemaRefName r with
          | some t => if t ∈ acc then acc else acc ++ [t]
          | none => acc) []))

/-- The mutable state of the `dfs` closure inside `detect_cycles`:
`visited`, the recursion `stack` and the accumulated cyclic set, each a
Python set consumed through membership only. -/
structure DfsSt where
  visited : List String
  stack : List String
  cyc : List String

/-- Python `cyc.update(stack)`: membership-preserving union. -/
def listUnion (c s : List String) : List String :=
  c ++ s.filter (fun x => !(c.contains x))

/-- The recursive `dfs` of `detect_cycles` (source lines 200-210).
The Python recursion is bounded by the number of distinct vertices, since
every recursive descent first inserts an unvisited vertex into `visited`;
the explicit `fuel` mirrors that bound and `detect_cycles` passes a value
the proofs below show is never exhausted. -/
def dfs (g : List (String × List String)) : Nat → String → DfsSt → DfsSt
  | 0, _, s => s
  | fuel + 1, node, s =>
    if node ∈ s.stack then { s with cyc := listUnion s.cyc s.stack }
    else if node ∈ s.visited then s
    else
      let s1 : DfsSt := ⟨node :: s.visited, node :: s.stack, s.cyc⟩
      let s2 := (edgesOf g node).foldl (fun st nxt => dfs g fuel nxt st) s1
      { s2 with stack := s2.stack.erase node }

/-- Every vertex name or edge target of the graph. -/
def nodesOf (g : List (String × List String)) : List String :=
  g.map Prod.fst ++ (g.map Prod.snd).flatten

/-- Recursion-depth bound handed to `dfs`: more than the number of
(distinct) vertices and edge targets. -/
def fuelOf (g : List (String × List String)) : Nat :=
  (nodesOf g).length + 1

/-- `detect_cycles` (source lines 195-214): run `dfs` from every vertex in
mapping order; the result is the accumulated cyclic set (sorted only
later, by the caller — membership is what the claims consume). -/
def detect_cycles (g : List (String × List String)) : List String :=
  (g.foldl (fun s p => dfs g (fuelOf g) p.1 s) ⟨[], [], []⟩).cyc

/-- The mutable `counts` dictionary of `count_polymorphism`
(source lines 272-282), one field per key. -/
structure PolyCounts where
  union_nodes : Nat
  union_branches : Nat
  max_union_branches : Nat
  allof_items : Nat
  discriminators : Nat
  oneof_nodes : Nat
  oneof_branches : Nat
  anyof_nodes : Nat
  anyof_branches : Nat

def PolyCounts.zero : PolyCounts := ⟨0, 0, 0, 0, 0, 0, 0, 0, 0⟩

mutual
/-- The inner `walk` of `count_polymorphism` (source lines 284-312):
on a mapping, count a `discriminator` key, `oneOf`/`anyOf` lists (node
and branch counts, plus the per-node maximum), and `allOf` list lengths,
then recurse into every value; on a sequence recurse into every item.
The counter dictionary is destructured so each node applies its
increments to the nine running values directly. -/
def polyWalk : PVal → PolyCounts → PolyCounts
  | .dict entries, ⟨un, ub, mub, ai, ds, onn, onb, ann, anb⟩ =>
    let oneLen : Option Nat :=
      match lookupKey entries "oneOf" with | some (PVal.list l) => some l.length | _ => none
    let anyLen : Option Nat :=
      match lookupKey entries "anyOf" with | some (PVal.list l) => some l.length | _ => none
    let oneHit : Nat := match oneLen with | some _ => 1 | none => 0
    let anyHit : Nat := match anyLen with | some _ => 1 | none => 0
    let branchesHere := oneLen.getD 0 + anyLen.getD 0
    polyWalkEntries entries
      ⟨un + oneHit + anyHit,
       if branchesHere ≠ 0 then ub + branchesHere else ub,
       if branchesHere ≠ 0 && mub < branchesHere then branchesHere else mub,
       ai + (match lookupKey entries "allOf" with | some (PVal.list l) => l.length | _ => 0),
       if hasKey entries "discriminator" then ds + 1 else ds,
       onn + oneHit, onb + oneLen.getD 0,
       ann + anyHit, anb + anyLen.getD 0⟩
  | .list l, c => polyWalkList l c
  | _, c => c

def polyWalkEntries : Entries → PolyCounts → PolyCounts
  | [], c => c
  | (_, v) :: rest, c => polyWalkEntries rest (polyWalk v c)

def polyWalkList : List PVal → PolyCounts → PolyCounts
  | [], c => c
  | x :: xs, c => polyWalkList xs (polyWalk x c)
end

/-- `count_polymorphism` (source lines 271-315): walk from a fresh zero
counter. -/
def count_polymorphism (node : PVal) : PolyCounts :=
  polyWalk node PolyCounts.zero

/-- The `polymorphic_component_targets` set (source lines 346-350): names
of component schemas whose `count_polymorphism` shows any union node,
`allOf` item or discriminator — anywhere inside the definition, since the
walk is fully recursive. -/
def polymorphic_component_targets (spec : Entries) : List String :=
  ((collect_schema_defs spec).filter (fun nv =>
    let c := count_polymorphism nv.2
    decide (0 < c.union_nodes) || decide (0 < c.allof_items) || decide (0 < c.discriminators))).map Prod.fst

/-- `refs_all_nodes` (source lines 353-355): the references found inside
every node yielded by `iter_schema_nodes`, concatenated in order. -/
def schemaNodeRefs (spec : Entries) : List String :=
  (iter_schema_nodes spec).foldl (fun acc p => acc ++ find_refs p.2) []

/-- `poly_ref_targets` (source lines 356-362): among the schema-node
references, the internal schema targets that name a polymorphic component
schema. -/
def poly_ref_targets (spec : Entries) : List String :=
  (schemaNodeRefs spec).foldl
    (fun acc r =>
      match schemaRefName r with
      | some t => if t ∈ polymorphic_component_targets spec then acc ++ [t] else acc
      | none => acc) []

/-- `polymorphicRefCount` of the report (source line 393). -/
def polymorphicRefCount (spec : Entries) : Nat :=
  (poly_ref_targets spec).length

/-- The waveform keyword set `sample_keys` (source line 504). -/
def sample_keys : List String := ["samples", "waveform", "data", "values"]

/-- One entry of `sample_array_props` (source line 515). -/
structure SampleProp where
  schemaPointer : String
  property : String
  itemType : String
  itemFormat : Option PVal

/-- Does this property value qualify as a sample array (source lines
510-513): name in `sample_keys` case-insensitively, a dict typed
`array`, with dict `items` typed `number` or `integer`? -/
def isSampleArrayProp (k : String) (v : PVal) : Bool :=
  (strToLower k ∈ sample_keys) &&
  (match v with
   | PVal.dict vd =>
     (match lookupKey vd "type" with | some (PVal.str "array") => true | _ => false) &&
     (match lookupKey vd "items" with
      | some (PVal.dict itd) =>
        match lookupKey itd "type" with
        | some (PVal.str t) => t == "number" || t == "integer"
        | _ => false
      | _ => false)
   | _ => false)

/-- `sample_array_props` (source lines 501-515): scan the top-level
properties of every schema node for sample-like numeric arrays. -/
def sampleArrayProps (spec : Entries) : List SampleProp :=
  (iter_schema_nodes spec).foldl
    (fun acc ps =>
      match ps.2 with
      | PVal.dict schEntries =>
        acc ++ (propsOf schEntries).foldl
          (fun a kv =>
            if isSampleArrayProp kv.1 kv.2 then
              match kv.2 with
              | PVal.dict vd =>
                let itd := dictOrEmpty (lookupKey vd "items")
                a ++ [⟨ps.1, kv.1,
                       (match lookupKey itd "type" with | some (PVal.str t) => t | _ => ""),
                       lookupKey itd "format"⟩]
              | _ => a
            else a) []
      | _ => acc) []

/-- Binary-alternative detection inside schema properties (source lines
517-521): some top-level property of some schema node with
`format: byte|binary` or `contentEncoding: base64`. -/
def binaryAltInSchemas (spec : Entries) : Bool :=
  (iter_schema_nodes spec).any (fun ps =>
    match ps.2 with
    | PVal.dict schEntries =>
      (propsOf schEntries).any (fun kv =>
        match kv.2 with
        | PVal.dict vd =>
          (match lookupKey vd "format" with
           | some (PVal.str f) => f == "byte" || f == "binary"
           | _ => false) ||
          (match lookupKey vd "contentEncoding" with
           | some (PVal.str "base64") => true
           | _ => false)
        | _ => false)
    | _ => false)

/-- Binary-alternative detection through media types (source lines
522-534): an `application/octet-stream` key among the `content` entries
fetched from an operation's `requestBody` or — as written in the source —
from the key `content` of its `responses` mapping itself. -/
def binaryAltOctet (spec : Entries) : Bool :=
  (dictOrEmpty (lookupKey spec "paths")).any (fun pe =>
    match pe.2 with
    | PVal.dict item =>
      item.any (fun mo =>
        (strToLower mo.1 ∈ HTTP_METHODS) &&
        (match mo.2 with
         | PVal.dict op =>
           ["requestBody", "responses"].any (fun sect =>
             match lookupKey op sect with
             | some (PVal.dict secObj) =>
               (dictOrEmpty (lookupKey secObj "content")).any
                 (fun mtkv => strToLower mtkv.1 == "application/octet-stream")
             | _ => false)
         | _ => false))
    | _ => false)

/-- `binary_alt_present` after both scans (source lines 502-534). -/
def binary_alt_present (spec : Entries) : Bool :=
  binaryAltInSchemas spec || binaryAltOctet spec

/-- `waveformSerialization.issueDetected` (source lines 535-549): true
exactly when `sample_array_props` is nonempty, independent of
`binary_alt_present`. -/
def waveformIssueDetected (spec : Entries) : Bool :=
  !(sampleArrayProps spec).isEmpty

/-!
Arena model for `schema_depth` (source lines 217-240).  The Python
function guards recursion with `id(schema)`, the machine identity of a
live dict object, so the embedding makes dict identity explicit: every
dict is a numbered cell of a heap and values refer to dicts by address.
Cyclic object graphs — impossible for pure inductive values — are then
ordinary heaps whose cells mention their own addresses.
-/

/-- Heap-addressed document values: dicts live in the arena and are
denoted by their address. -/
inductive HVal where
  | null : HVal
  | str : String → HVal
  | int : Int → HVal
  | list : List HVal → HVal
  | ref : Nat → HVal

/-- The arena: dict contents indexed by address. -/
abbrev Heap := List (Nat × List (String × HVal))

def lookupHeap (h : Heap) (i : Nat) : Option (List (String × HVal)) :=
  match h with
  | [] => none
  | (j, es) :: rest => if j = i then some es else lookupHeap rest i

def lookupHKey (d : List (String × HVal)) (k : String) : Option HVal :=
  match d with
  | [] => none
  | (k', v) :: rest => if k' = k then some v else lookupHKey rest k

/-- Number of arena addresses not yet recorded in `seen`: the quantity
that shrinks every time `schema_depth` enters a fresh dict. -/
def unseenCount (h : Heap) (seen : List Nat) : Nat :=
  (h.map Prod.fst).countP (fun i => decide (i ∉ seen))


theorem unseenCount_anti (h : Heap) {s s' : List Nat} (hs : s ⊆ s') :
    unseenCount h s' ≤ unseenCount h s := by
  unfold unseenCount
  apply List.countP_mono_left
  intro a _ hp
  simp only [decide_eq_true_eq] at hp ⊢
  exact fun hmem => hp (hs hmem)

theorem countP_notmem_cons_lt {α : Type} [DecidableEq α] {l : List α} {s : List α} {i : α}
    (hi : i ∈ l) (hns : i ∉ s) :
    l.countP (fun x => decide (x ∉ i :: s)) < l.countP (fun x => decide (x ∉ s)) := by
  induction l with
  | nil => cases hi
  | cons a t ih =>
    rw [List.countP_cons, List.countP_cons]
    have hmono : t.countP (fun x => decide (x ∉ i :: s)) ≤ t.countP (fun x => decide (x ∉ s)) := by
      apply List.countP_mono_left
      intro b _ hb
      simp only [decide_eq_true_eq] at hb ⊢
      exact fun hbs => hb (List.mem_cons_of_mem _ hbs)
    rcases List.mem_cons.mp hi with rfl | hmem
    · have h1 : (decide (i ∉ i :: s)) = false := by simp
      have h2 : (decide (i ∉ s)) = true := by simpa using hns
      rw [h1, h2]
      have e1 : (if false = true then (1 : Nat) else 0) = 0 := rfl
      have e2 : (if true = true then (1 : Nat) else 0) = 1 := rfl
      rw [e1, e2]
      omega
    · have ht := ih hmem
      have hcond : (if (decide (a ∉ i :: s)) = true then 1 else 0) ≤
          (if (decide (a ∉ s)) = true then 1 else 0) := by
        by_cases hc : a ∈ s
        · have h1 : (decide (a ∉ i :: s)) = false := by
            simp [List.mem_cons_of_mem i hc]
          rw [h1]
          simp
        · have h2 : (decide (a ∉ s)) = true := by simpa using hc
          rw [h2]
          split <;> simp
      omega

theorem unseenCount_cons_lt (h : Heap) {seen : List Nat} {i : Nat}
    (hdom : i ∈ h.map Prod.fst) (hns : i ∉ seen) :
    unseenCount h (i :: seen) < unseenCount h seen :=
  countP_notmem_cons_lt hdom hns

theorem lookupHeap_some_mem {h : Heap} {i : Nat} {es : List (String × HVal)}
    (hl : lookupHeap h i = some es) : i ∈ h.map Prod.fst := by
  induction h with
  | nil => simp [lookupHeap] at hl
  | cons p rest ih =>
    obtain ⟨j, es'⟩ := p
    rw [lookupHeap] at hl
    by_cases hj : j = i
    · rw [List.map_cons]
      exact List.mem_cons.mpr (Or.inl hj.symm)
    · rw [if_neg hj] at hl
      exact List.mem_cons_of_mem _ (ih hl)

/-- The child values a dict hands to the recursion, in Python order
(source lines 228-239): the values of a dict-valued `properties`, the
value of `items` when the key is present, then the elements of each
list-valued composition keyword. -/
def depthChildren (h : Heap) (entries : List (String × HVal)) : List HVal :=
  (match lookupHKey entries "properties" with
   | some (HVal.ref j) => (match lookupHeap h j with | some pes => pes.map Prod.snd | none => [])
   | _ => []) ++
  (match lookupHKey entries "items" with | some x => [x] | none => []) ++
  (["allOf", "anyOf", "oneOf"].map (fun k =>
    match lookupHKey entries k with | some (HVal.list l) => l | _ => [])).flatten

mutual
/-- `schema_depth` with its threaded `seen` set (the Python set object is
mutated in place and shared by all recursive calls of one top-level
invocation), returning the depth together with the final `seen`.  The
subtype records that `seen` only ever grows, which also carries the
termination argument: entering a fresh dict consumes one unseen arena
address. -/
def schema_depthS (h : Heap) (v : HVal) (seen : List Nat) :
    {r : Nat × List Nat // seen ⊆ r.2} :=
  match v with
  | HVal.ref i =>
    if hmem : i ∈ seen then ⟨(0, seen), fun _ hx => hx⟩
    else
      match hl : lookupHeap h i with
      | none => ⟨(0, i :: seen), fun _ hx => List.mem_cons_of_mem _ hx⟩
      | some entries =>
        match depthListS h (depthChildren h entries) (i :: seen) with
        | ⟨(d, s2), h2⟩ => ⟨(d, s2), fun _ hx => h2 (List.mem_cons_of_mem _ hx)⟩
  | _ => ⟨(0, seen), fun _ hx => hx⟩
termination_by (unseenCount h seen, sizeOf v)
decreasing_by
  exact Prod.Lex.left _ _ (unseenCount_cons_lt h (lookupHeap_some_mem hl) hmem)

/-- Fold of `1 + schema_depth(child)` over a child list, starting from
the `[0]` seed of the source, keeping the running maximum and the
threaded `seen`. -/
def depthListS (h : Heap) (l : List HVal) (seen : List Nat) :
    {r : Nat × List Nat // seen ⊆ r.2} :=
  match l with
  | [] => ⟨(0, seen), fun _ hx => hx⟩
  | c :: cs =>
    match schema_depthS h c seen with
    | ⟨(dc, s1), h1⟩ =>
      match depthListS h cs s1 with
      | ⟨(dr, s2), h2⟩ => ⟨(max (1 + dc) dr, s2), fun _ hx => h2 (h1 hx)⟩
termination_by (unseenCount h seen, sizeOf l)
decreasing_by
  · apply Prod.Lex.right
    simp only [List.cons.sizeOf_spec]
    omega
  · rcases Nat.eq_or_lt_of_le (unseenCount_anti h h1) with he | hlt
    · rw [he]
      apply Prod.Lex.right
      simp only [List.cons.sizeOf_spec]
      omega
    · exact Prod.Lex.left _ _ hlt
end

/-- `schema_depth` (source lines 217-240) on the arena model: the depth
value together with the final contents of the `seen` set. -/
def schema_depth (h : Heap) (v : HVal) (seen : List Nat) : Nat × List Nat :=
  (schema_depthS h v seen).1

/-!
Composite score model (source lines 405-470).  Python floats are modelled
by real numbers (exact arithmetic); `round(x, 1)` is round-half-to-even
applied to `10 * x`.
-/

noncomputable def log10 (x : ℝ) : ℝ := Real.log x / Real.log 10

/-- `norm_log` (source lines 406-411). -/
noncomputable def norm_log (x k : ℝ) : ℝ :=
  if k ≤ 0 then 0 else min 1 (log10 (1 + max 0 x) / log10 (1 + k))

/-- Python's `round` to an integer: round half to even. -/
noncomputable def pyRoundInt (x : ℝ) : ℤ :=
  let n := ⌊x⌋
  let r := x - n
  if r < 1 / 2 then n
  else if 1 / 2 < r then n + 1
  else if Even n then n else n + 1

/-- Python `round(x, 1)`. -/
noncomputable def round1 (x : ℝ) : ℝ := (pyRoundInt (10 * x) : ℝ) / 10

/-- The weighted score expression of `compute_metrics` (source lines
426-470), as a function of the eleven raw report metrics it reads:
operation, path, schema and reference counts, average and maximum
parameters per operation, maximum nesting depth, circular-schema count,
union branch count, `allOf` usage count and discriminator count.
(`x or 0` on a float is the identity: a falsy float is `0.0` already.) -/
noncomputable def complexity_score
    (ops paths schemas refs avgp maxp depth circ unionBr allofT discr : ℝ) : ℝ :=
  let n_ops := norm_log ops 500
  let n_paths := norm_log paths 300
  let n_schemas := norm_log schemas 500
  let n_refs := norm_log refs 2000
  let n_avg_params := min 1 (avgp / 10)
  let n_max_params := min 1 (maxp / 20)
  let n_depth := min 1 (depth / 10)
  let n_circular := min 1 (circ / 10)
  let n_poly_union := min 1 (unionBr / 100)
  let n_poly_allof := min 1 (allofT / 50)
  let n_poly_discriminator := min 1 (discr / 25)
  round1 (n_ops * 22 + n_schemas * 18 + n_refs * 12 + n_paths * 8
    + n_avg_params * 8 + n_depth * 10 + n_max_params * 4 + n_circular * 3
    + n_poly_union * 8 + n_poly_allof * 4 + n_poly_discriminator * 3)

/-!
Spec-level predicates for the polymorphism classification (claim C7).
`hasPoly` renders the corrected reading — some node anywhere inside the
schema definition carries a `oneOf` list, an `anyOf` list, a nonempty
`allOf` list or a `discriminator` key; `topLevelPoly` renders the claim's
literal words — such a marker directly at the schema's own top level.
Both are independent recursions, to be compared with `count_polymorphism`.
-/

mutual
def hasPoly : PVal → Bool
  | .dict entries =>
    (match lookupKey entries "oneOf" with | some (PVal.list _) => true | _ => false)
    || (match lookupKey entries "anyOf" with | some (PVal.list _) => true | _ => false)
    || (match lookupKey entries "allOf" with
        | some (PVal.list l) => decide (0 < l.length) | _ => false)
    || hasKey entries "discriminator"
    || hasPolyEntries entries
  | .list l => hasPolyList l
  | _ => false

def hasPolyEntries : Entries → Bool
  | [] => false
  | (_, v) :: rest => hasPoly v || hasPolyEntries rest

def hasPolyList : List PVal → Bool
  | [] => false
  | x :: xs => hasPoly x || hasPolyList xs
end

/-- The classification criterion of source lines 348-350 read off a counter
record: some union node, `allOf` item or discriminator was counted. -/
def polyHit (c : PolyCounts) : Prop :=
  0 < c.union_nodes ∨ 0 < c.allof_items ∨ 0 < c.discriminators

/-- The claim's literal reading: a union/`allOf`/`discriminator` marker
directly at the schema's own top level. -/
def topLevelPoly : PVal → Bool
  | PVal.dict entries =>
    (match lookupKey entries "oneOf" with | some (PVal.list _) => true | _ => false)
    || (match lookupKey entries "anyOf" with | some (PVal.list _) => true | _ => false)
    || (match lookupKey entries "allOf" with | some (PVal.list _) => true | _ => false)
    || hasKey entries "discriminator"
  | _ => false

/-- A document whose component schema `A` is polymorphic only below its own
top level (a `oneOf` nested inside a property) while `B` references `A`. -/
def exDoc7 : Entries :=
  [("openapi", PVal.str "3.0.0"),
   ("components", PVal.dict
     [("schemas", PVal.dict
       [("A", PVal.dict
          [("properties", PVal.dict
            [("p", PVal.dict [("oneOf", PVal.list [PVal.dict []])])])]),
        ("B", PVal.dict [("$ref", PVal.str "#/components/schemas/A")])])])]

/-- A document whose schema `Wave` has a `samples` array-of-number property
and no binary or base64 alternative anywhere. -/
def exDoc8good : Entries :=
  [("openapi", PVal.str "3.0.0"),
   ("components", PVal.dict [("schemas", PVal.dict
     [("Wave", PVal.dict
       [("type", PVal.str "object"),
        ("properties", PVal.dict
          [("samples", PVal.dict
            [("type", PVal.str "array"),
             ("items", PVal.dict [("type", PVal.str "number")])])])])])])]

/-- The same document with an additional `format: binary` sibling property:
a binary alternative is present. -/
def exDoc8alt : Entries :=
  [("openapi", PVal.str "3.0.0"),
   ("components", PVal.dict [("schemas", PVal.dict
     [("Wave", PVal.dict
       [("type", PVal.str "object"),
        ("properties", PVal.dict
          [("samples", PVal.dict
            [("type", PVal.str "array"),
             ("items", PVal.dict [("type", PVal.str "number")])]),
           ("blob", PVal.dict
            [("type", PVal.str "string"),
             ("format", PVal.str "binary")])])])])])]

mutual
theorem pvalEq_iff (a b : PVal) : pvalEq a b = true ↔ a = b := by
  cases a <;> cases b <;> simp [pvalEq]
  case list.list la lb => exact pvalEqList_iff la lb
  case dict.dict da db => exact pvalEqEntries_iff da db

theorem pvalEqList_iff (la lb : List PVal) : pvalEqList la lb = true ↔ la = lb := by
  cases la with
  | nil => cases lb <;> simp [pvalEqList]
  | cons a as =>
    cases lb with
    | nil => simp [pvalEqList]
    | cons b bs =>
      simp only [pvalEqList, Bool.and_eq_true, List.cons.injEq]
      rw [pvalEq_iff a b, pvalEqList_iff as bs]

theorem pvalEqEntries_iff (da db : Entries) : pvalEqEntries da db = true ↔ da = db := by
  cases da with
  | nil => cases db <;> simp [pvalEqEntries]
  | cons a as =>
    cases db with
    | nil => simp [pvalEqEntries]
    | cons b bs =>
      obtain ⟨ka, va⟩ := a
      obtain ⟨kb, vb⟩ := b
      simp only [pvalEqEntries, Bool.and_eq_true, List.cons.injEq, Prod.mk.injEq, beq_iff_eq]
      rw [pvalEq_iff va vb, pvalEqEntries_iff as bs]
end

instance : DecidableEq PVal := fun a b => decidable_of_iff _ (pvalEq_iff a b)

deriving instance DecidableEq for Except

/-! Association-list lemmas shared by the merge proofs. -/

theorem lookupKey_append_single_ne (d : Entries) {k k' : String} (v : PVal) (h : k ≠ k') :
    lookupKey (d ++ [(k', v)]) k = lookupKey d k := by
  induction d with
  | nil => simp [lookupKey, Ne.symm h]
  | cons p rest ih =>
    obtain ⟨ka, va⟩ := p
    by_cases hk : ka = k <;> simp [lookupKey, hk, ih]

theorem lookupKey_setKey_ne (d : Entries) {k k' : String} (v : PVal) (h : k ≠ k') :
    lookupKey (setKey d k' v) k = lookupKey d k := by
  induction d with
  | nil => simp [setKey, lookupKey, Ne.symm h]
  | cons p rest ih =>
    obtain ⟨ka, va⟩ := p
    by_cases h1 : ka = k'
    · subst h1
      simp [setKey, lookupKey, Ne.symm h]
    · by_cases h2 : ka = k <;> simp [setKey, lookupKey, h1, h2, ih, h]

theorem lookupKey_setdefault_ne (d : Entries) {k k' : String} (v : PVal) (h : k ≠ k') :
    lookupKey (setdefaultKey d k' v) k = lookupKey d k := by
  unfold setdefaultKey
  split
  · rfl
  · exact lookupKey_append_single_ne d v h

/-- Processing source entries that bind `k` only to null (or do not bind
`k` at all) leaves the destination's binding of `k` untouched. -/
theorem deep_merge_lookup_invariant :
    ∀ (src dst : Entries) (k : String), (∀ kv ∈ src, kv.1 = k → kv.2.isNull = true) →
      lookupKey (deep_merge dst src) k = lookupKey dst k := by
  intro src
  induction src with
  | nil => intro dst k _; simp only [deep_merge]
  | cons p rest ih =>
    intro dst k h
    obtain ⟨k', v'⟩ := p
    have hrest : ∀ kv ∈ rest, kv.1 = k → kv.2.isNull = true :=
      fun kv hkv => h kv (List.mem_cons_of_mem _ hkv)
    rw [deep_merge]
    by_cases hn : v'.isNull
    · simp only [hn, if_true]
      exact ih dst k hrest
    · have hkne : k' ≠ k := fun he => hn (h (k', v') (List.mem_cons_self _ _) he)
      simp only [hn, if_false, Bool.false_eq_true]
      cases hd : lookupKey dst k' with
      | none =>
        rw [ih _ k hrest]
        exact lookupKey_append_single_ne dst v' (Ne.symm hkne)
      | some dv =>
        cases dv <;> cases v' <;> rw [ih _ k hrest] <;>
          first
            | rfl
            | exact lookupKey_setKey_ne dst _ (Ne.symm hkne)

/-- C10: In `deep_merge`, every key whose value in the incoming document
is null is skipped entirely: the merge result equals the merge of the
null-free remainder, so a key all of whose incoming bindings are null is
neither added when absent nor merged into, and the destination's binding
for it is exactly preserved. -/
theorem deep_merge_null_skip :
    (∀ dst src, deep_merge dst src = deep_merge dst (src.filter (fun kv => !kv.2.isNull)))
    ∧ (∀ dst src k, (∀ kv ∈ src, kv.1 = k → kv.2.isNull = true) →
        lookupKey (deep_merge dst src) k = lookupKey dst k) := by
  constructor
  · intro dst src
    induction src generalizing dst with
    | nil => rfl
    | cons p rest ih =>
      obtain ⟨k, v⟩ := p
      by_cases hn : v.isNull
      · rw [deep_merge]
        simp only [hn, if_true, List.filter_cons, Bool.not_true, Bool.false_eq_true]
        exact ih dst
      · have hn' : (!v.isNull) = true := by simp [hn]
        have hfil : List.filter (fun kv => !kv.2.isNull) ((k, v) :: rest)
            = (k, v) :: List.filter (fun kv => !kv.2.isNull) rest := by
          simp [List.filter_cons, hn']
        rw [hfil, deep_merge, deep_merge]
        simp only [hn, if_false, Bool.false_eq_true]
        cases lookupKey dst k with
        | none => exact ih _
        | some dv => cases dv <;> cases v <;> exact ih _
  · intro dst src k h
    exact deep_merge_lookup_invariant src dst k h

/-- C10 witness: a later fragment binding `a` (present downstream) and `b`
(absent) to null neither overrides nor introduces either key. -/
theorem deep_merge_null_skip_witness :
    lookupKey (deep_merge [("a", PVal.int 1)] [("a", PVal.null), ("b", PVal.null)]) "a" = some (PVal.int 1)
    ∧ lookupKey (deep_merge [("a", PVal.int 1)] [("a", PVal.null), ("b", PVal.null)]) "b" = none := by
  constructor
  · rw [deep_merge_null_skip.2 _ _ _ (by decide)]
    rfl
  · rw [deep_merge_null_skip.2 _ _ _ (by decide)]
    rfl

/-- The six top-level keys that `merge_docs` itself reads or writes;
every other top-level key comes through untouched from the baseline. -/
def mergeTopKeys : List String := ["openapi", "info", "paths", "components", "tags", "servers"]

theorem mergeComponentsStep_preserve {acc : Entries} {ckcv : String × PVal} {acc' : Entries}
    (h : mergeComponentsStep acc ckcv = Except.ok acc') {k : String} (hk : k ≠ "components") :
    lookupKey acc' k = lookupKey acc k := by
  unfold mergeComponentsStep at h
  cases hv : ckcv.2 <;> rw [hv] at h <;> try dsimp only at h
  all_goals try (cases h; rfl)
  case dict cv =>
    cases hcomp : lookupKey acc "components" <;> rw [hcomp] at h <;> try dsimp only at h
    · cases h
    case some cval =>
      cases cval
      all_goals try dsimp only at h
      all_goals try cases h
      case dict rc =>
        cases htgt : lookupKey (setdefaultKey rc ckcv.1 (PVal.dict [])) ckcv.1 <;> rw [htgt] at h
          <;> try dsimp only at h
        · cases h
        case some tval =>
          cases tval
          all_goals try (cases h; exact lookupKey_setKey_ne acc _ hk)
          all_goals cases cv
          all_goals cases h
          all_goals exact lookupKey_setKey_ne acc _ hk

theorem mergeComponents_preserve {dc : Entries} :
    ∀ {acc acc' : Entries}, mergeComponents acc dc = Except.ok acc' →
      ∀ {k : String}, k ≠ "components" → lookupKey acc' k = lookupKey acc k := by
  unfold mergeComponents
  induction dc with
  | nil =>
    intro acc acc' h k _
    simp only [List.foldlM_nil] at h
    cases h
    rfl
  | cons x rest ih =>
    intro acc acc' h k hk
    rw [List.foldlM_cons] at h
    cases hs : mergeComponentsStep acc x with
    | error e => rw [hs] at h; cases h
    | ok a =>
      rw [hs] at h
      have h2 : rest.foldlM mergeComponentsStep a = Except.ok acc' := h
      rw [ih h2 hk, mergeComponentsStep_preserve hs hk]

theorem mergeTags_preserve {acc : Entries} {ts : List PVal} {acc' : Entries}
    (h : mergeTags acc ts = Except.ok acc') {k : String} (hk : k ≠ "tags") :
    lookupKey acc' k = lookupKey acc k := by
  unfold mergeTags at h
  cases htv : lookupKey (setdefaultKey acc "tags" (PVal.list [])) "tags" <;> rw [htv] at h
    <;> try dsimp only at h
  · cases h
  case some tval =>
    cases tval
    case null => cases h
    case bool b => cases h
    case int n => cases h
    case list cur =>
      cases h
      rw [lookupKey_setKey_ne _ _ hk, lookupKey_setdefault_ne _ _ hk]
    case str s =>
      cases hany : ts.any (fun t => t.isDict) <;> rw [hany] at h
      · cases h
        exact lookupKey_setdefault_ne _ _ hk
      · cases h
    case dict d =>
      cases hany : ts.any (fun t => t.isDict) <;> rw [hany] at h
      · cases h
        exact lookupKey_setdefault_ne _ _ hk
      · cases h

theorem mergeServers_preserve {acc : Entries} {ss : List PVal} {acc' : Entries}
    (h : mergeServers acc ss = Except.ok acc') {k : String} (hk : k ≠ "servers") :
    lookupKey acc' k = lookupKey acc k := by
  unfold mergeServers at h
  cases htv : lookupKey (setdefaultKey acc "servers" (PVal.list [])) "servers" <;> rw [htv] at h
    <;> try dsimp only at h
  · cases h
  case some tval =>
    cases tval
    case null => cases h
    case bool b => cases h
    case int n => cases h
    case list cur =>
      cases h
      rw [lookupKey_setKey_ne _ _ hk, lookupKey_setdefault_ne _ _ hk]
    case str s =>
      cases hany : ss.any (fun t => t.isDict) <;> rw [hany] at h
      · cases h
        exact lookupKey_setdefault_ne _ _ hk
      · cases h
    case dict d =>
      cases hany : ss.any (fun t => t.isDict) <;> rw [hany] at h
      · cases h
        exact lookupKey_setdefault_ne _ _ hk
      · cases h

theorem mergeOneDoc_preserve {acc : Entries} {doc : PVal} {acc' : Entries}
    (h : mergeOneDoc acc doc = Except.ok acc') {k : String}
    (hp : k ≠ "paths") (hc : k ≠ "components") (ht : k ≠ "tags") (hs : k ≠ "servers") :
    lookupKey acc' k = lookupKey acc k := by
  unfold mergeOneDoc at h
  cases doc
  all_goals try (cases h; rfl)
  case dict dd =>
    dsimp only at h
    have stage1 : ∀ {a1 : Entries},
        (match lookupKey dd "paths" with
         | some (PVal.dict dp) =>
           (match lookupKey acc "paths" with
            | some (PVal.dict rp) => Except.ok (setKey acc "paths" (PVal.dict (deep_merge rp dp)))
            | some _ =>
              match dp with
              | [] => Except.ok acc
              | _ :: _ => Except.error "TypeError"
            | none => Except.error "KeyError")
         | _ => Except.ok acc) = Except.ok a1 →
        lookupKey a1 k = lookupKey acc k := by
      intro a1 h1
      cases hpv : lookupKey dd "paths" <;> rw [hpv] at h1 <;> try dsimp only at h1
      · cases h1; rfl
      case some pv =>
        cases pv
        all_goals try (cases h1; rfl)
        case dict dp =>
          cases hap : lookupKey acc "paths" <;> rw [hap] at h1 <;> try dsimp only at h1
          · cases h1
          case some apv =>
            cases apv
            all_goals try (cases h1; exact lookupKey_setKey_ne acc _ hp)
            all_goals cases dp
            all_goals cases h1
            all_goals rfl
    cases h1 : (match lookupKey dd "paths" with
         | some (PVal.dict dp) =>
           (match lookupKey acc "paths" with
            | some (PVal.dict rp) => Except.ok (setKey acc "paths" (PVal.dict (deep_merge rp dp)))
            | some _ =>
              match dp with
              | [] => Except.ok acc
              | _ :: _ => Except.error "TypeError"
            | none => Except.error "KeyError")
         | _ => Except.ok acc) with
    | error e => rw [h1] at h; cases h
    | ok acc1 =>
      rw [h1] at h
      dsimp only at h
      have hs1 := stage1 h1
      cases h2 : (match lookupKey dd "components" with
          | some (PVal.dict dc) => mergeComponents acc1 dc
          | _ => Except.ok acc1) with
      | error e => rw [h2] at h; cases h
      | ok acc2 =>
        rw [h2] at h
        dsimp only at h
        have hs2 : lookupKey acc2 k = lookupKey acc1 k := by
          cases hcv : lookupKey dd "components" <;> rw [hcv] at h2 <;> try dsimp only at h2
          · cases h2; rfl
          case some cv =>
            cases cv
            all_goals try (cases h2; rfl)
            case dict dc => exact mergeComponents_preserve h2 hc
        cases h3 : (match lookupKey dd "tags" with
            | some (PVal.list ts) => mergeTags acc2 ts
            | _ => Except.ok acc2) with
        | error e => rw [h3] at h; cases h
        | ok acc3 =>
          rw [h3] at h
          dsimp only at h
          have hs3 : lookupKey acc3 k = lookupKey acc2 k := by
            cases htv : lookupKey dd "tags" <;> rw [htv] at h3 <;> try dsimp only at h3
            · cases h3; rfl
            case some tv =>
              cases tv
              all_goals try (cases h3; rfl)
              case list ts => exact mergeTags_preserve h3 ht
          have hs4 : lookupKey acc' k = lookupKey acc3 k := by
            cases hsv : lookupKey dd "servers" <;> rw [hsv] at h <;> try dsimp only at h
            · cases h; rfl
            case some sv =>
              cases sv
              all_goals try (cases h; rfl)
              case list ss => exact mergeServers_preserve h hs
          rw [hs4, hs3, hs2, hs1]

theorem foldlM_mergeOneDoc_preserve :
    ∀ (docs : List PVal) {acc r : Entries}, docs.foldlM mergeOneDoc acc = Except.ok r →
      ∀ {k : String}, k ≠ "paths" → k ≠ "components" → k ≠ "tags" → k ≠ "servers" →
        lookupKey r k = lookupKey acc k := by
  intro docs
  induction docs with
  | nil =>
    intro acc r h k _ _ _ _
    simp only [List.foldlM_nil] at h
    cases h
    rfl
  | cons d rest ih =>
    intro acc r h k hp hc ht hs
    rw [List.foldlM_cons] at h
    cases h1 : mergeOneDoc acc d with
    | error e => rw [h1] at h; cases h
    | ok a =>
      rw [h1] at h
      have h2 : rest.foldlM mergeOneDoc a = Except.ok r := h
      rw [ih h2 hp hc ht hs, mergeOneDoc_preserve h1 hp hc ht hs]

theorem mergeInit_preserve {d0 : Entries} {k : String}
    (h1 : k ≠ "openapi") (h2 : k ≠ "info") (h3 : k ≠ "paths") (h4 : k ≠ "components") :
    lookupKey (mergeInit (PVal.dict d0)) k = lookupKey d0 k := by
  unfold mergeInit
  rw [lookupKey_setdefault_ne _ _ h4, lookupKey_setdefault_ne _ _ h3,
    lookupKey_setdefault_ne _ _ h2, lookupKey_setdefault_ne _ _ h1]

theorem stripPathItems_preserve (ver : String) {result : Entries} {k : String}
    (hk : k ≠ "components") :
    lookupKey (stripPathItems ver result) k = lookupKey result k := by
  unfold stripPathItems
  split
  · rfl
  · split
    · exact lookupKey_setKey_ne _ _ hk
    · rfl

theorem pruneComponents_preserve {result : Entries} {k : String} (hk : k ≠ "components") :
    lookupKey (pruneComponents result) k = lookupKey result k := by
  unfold pruneComponents
  split
  · exact lookupKey_setKey_ne _ _ hk
  · rfl

/-- C2 amended: earliest-wins holds at the `deep_merge` level — when a key
is bound on both sides and the two values are not both mappings and not
both sequences (both scalars, mismatched kinds, or an incoming null), the
destination's value survives the merge unchanged and no error is raised
(the function is total).  At the top level, `merge_docs` preserves the
first document's binding of every key outside the six keys it manages
(`openapi`, `info`, `paths`, `components`, `tags`, `servers`) whenever it
succeeds — in particular a later document's top-level keys outside that
set are ignored entirely, so a conflict between two later documents keeps
neither value (see the counterexample). -/
theorem merge_earliest_wins :
    (∀ (dst src : Entries) (k : String) (dv sv : PVal), (src.map Prod.fst).Nodup →
      lookupKey dst k = some dv → lookupKey src k = some sv →
      ¬(dv.isDict = true ∧ sv.isDict = true) → ¬(dv.isList = true ∧ sv.isList = true) →
      lookupKey (deep_merge dst src) k = some dv)
    ∧ (∀ (d0 : Entries) (rest : List PVal) (r : Entries) (k : String), k ∉ mergeTopKeys →
        merge_docs (PVal.dict d0 :: rest) = Except.ok (PVal.dict r) →
        lookupKey r k = lookupKey d0 k) := by
  constructor
  · intro dst src
    induction src generalizing dst with
    | nil =>
      intro k dv sv _ _ hsrc _ _
      simp [lookupKey] at hsrc
    | cons p rest ih =>
      intro k dv sv hnd hdst hsrc hd hl
      obtain ⟨k', v'⟩ := p
      rw [deep_merge]
      rw [lookupKey] at hsrc
      by_cases hkk : k' = k
      · subst hkk
        rw [if_pos rfl] at hsrc
        injection hsrc with hsv
        subst hsv
        have hknotin : ∀ kv ∈ rest, kv.1 = k' → kv.2.isNull = true := by
          intro kv hkv hkeq
          exfalso
          have hmem : k' ∈ rest.map Prod.fst := List.mem_map.mpr ⟨kv, hkv, hkeq⟩
          have hnd2 : (k' :: rest.map Prod.fst).Nodup := by simpa using hnd
          exact (List.nodup_cons.mp hnd2).1 hmem
        by_cases hn : v'.isNull = true
        · rw [if_pos hn]
          rw [deep_merge_lookup_invariant rest dst k' hknotin]
          exact hdst
        · rw [if_neg hn]
          rw [hdst]
          cases dv <;> cases v'
          all_goals try (exfalso; apply hd; constructor <;> rfl)
          all_goals try (exfalso; apply hl; constructor <;> rfl)
          all_goals (rw [deep_merge_lookup_invariant rest dst k' hknotin]; exact hdst)
      · rw [if_neg hkk] at hsrc
        have hkne : k ≠ k' := fun he => hkk he.symm
        have hnd' : (rest.map Prod.fst).Nodup := by
          have h2 : (k' :: rest.map Prod.fst).Nodup := by simpa using hnd
          exact (List.nodup_cons.mp h2).2
        by_cases hn : v'.isNull = true
        · rw [if_pos hn]
          exact ih dst k dv sv hnd' hdst hsrc hd hl
        · rw [if_neg hn]
          cases hdk' : lookupKey dst k' with
          | none =>
            apply ih _ k dv sv hnd' _ hsrc hd hl
            rw [lookupKey_append_single_ne dst v' hkne]
            exact hdst
          | some dv' =>
            cases dv' <;> cases v'
            all_goals first
              | exact ih dst k dv sv hnd' hdst hsrc hd hl
              | (apply ih _ k dv sv hnd' _ hsrc hd hl
                 rw [lookupKey_setKey_ne dst _ hkne]
                 exact hdst)
  · intro d0 rest r k hk hmerge
    simp only [mergeTopKeys, List.mem_cons, List.not_mem_nil, or_false] at hk
    push_neg at hk
    obtain ⟨h1, h2, h3, h4, h5, h6⟩ := hk
    unfold merge_docs at hmerge
    dsimp only at hmerge
    cases hcomp : lookupKey (mergeInit (PVal.dict d0)) "components" <;> rw [hcomp] at hmerge
      <;> try dsimp only at hmerge
    · cases hmerge
    case some cval =>
      cases cval
      all_goals try cases hmerge
      case dict comps =>
        dsimp only at hmerge
        split at hmerge
        all_goals try cases hmerge
        case h_1 merged heq =>
          rw [pruneComponents_preserve h4, stripPathItems_preserve _ h4,
            foldlM_mergeOneDoc_preserve rest heq h3 h4 h5 h6,
            lookupKey_setKey_ne _ _ h4]
          exact mergeInit_preserve h1 h2 h3 h4

/-- C2 counterexample to the claim as stated: documents 2 and 3 both set
the top-level key `x` to scalars (1 respectively 2); the merged output
contains no `x` at all, so it does not keep the earlier document's value —
and a kind conflict on the `paths` key itself (scalar in the first
document, mapping in the second) raises a `TypeError` instead of silently
keeping the first value, contradicting "no error is raised on such a
conflict". -/
theorem merge_earliest_wins_counterexample :
    merge_docs [PVal.dict [], PVal.dict [("x", PVal.int 1)], PVal.dict [("x", PVal.int 2)]]
      = Except.ok (PVal.dict [("openapi", PVal.str "3.0.3"),
          ("info", PVal.dict [("title", PVal.str "Combined OpenAPI"), ("version", PVal.str "0.0.0")]),
          ("paths", PVal.dict []),
          ("components", PVal.dict
            [("schemas", PVal.dict []), ("parameters", PVal.dict []), ("responses", PVal.dict [])])])
    ∧ merge_docs [PVal.dict [("paths", PVal.int 3)], PVal.dict [("paths", PVal.dict [("/a", PVal.dict [])])]]
        = Except.error "TypeError" := by
  constructor <;> decide

/-- C2 witness: a concrete scalar conflict inside `deep_merge` keeps the
destination's value. -/
theorem merge_earliest_wins_witness :
    lookupKey (deep_merge [("a", PVal.int 1)] [("a", PVal.int 2)]) "a" = some (PVal.int 1) :=
  merge_earliest_wins.1 [("a", PVal.int 1)] [("a", PVal.int 2)] "a" (PVal.int 1) (PVal.int 2)
    (by decide) rfl rfl (by decide) (by decide)

/-! Lemmas about `rewrite_internal_refs`. -/

/-- The `$ref`-head component of `find_refs` commutes with the rewrite:
the rewritten dict's `$ref` entry is the rewritten string exactly when
the original held a string. -/
theorem refsHead_rewrite (entries : Entries) :
    (match lookupKey (rewriteEntries entries) "$ref" with
     | some (PVal.str s) => [s]
     | _ => []) =
    (match lookupKey entries "$ref" with
     | some (PVal.str s) => [rewriteRef s]
     | _ => []) := by
  induction entries with
  | nil => rfl
  | cons p rest ih =>
    obtain ⟨k', v⟩ := p
    by_cases hk : k' = "$ref"
    · subst hk
      cases v <;> simp [rewriteEntries, lookupKey, rewrite_internal_refs]
    · have hb : (k' == "$ref") = false := by simpa using hk
      cases v <;> simp [rewriteEntries, hb, lookupKey, hk, ih]

mutual
theorem find_refs_rewrite (v : PVal) :
    find_refs (rewrite_internal_refs v) = (find_refs v).map rewriteRef := by
  cases v
  case null => rfl
  case bool b => rfl
  case int n => rfl
  case str s => rfl
  case list l =>
    rw [rewrite_internal_refs, find_refs, find_refs]
    exact findRefsList_rewrite l
  case dict entries =>
    rw [rewrite_internal_refs, find_refs, find_refs, List.map_append,
      findRefsEntries_rewrite entries, refsHead_rewrite entries]
    cases hr : lookupKey entries "$ref" with
    | none => rfl
    | some rv => cases rv <;> rfl

theorem findRefsEntries_rewrite (entries : Entries) :
    findRefsEntries (rewriteEntries entries) = (findRefsEntries entries).map rewriteRef := by
  cases entries with
  | nil => rfl
  | cons p rest =>
    obtain ⟨k, v⟩ := p
    have hrec := findRefsEntries_rewrite rest
    by_cases hk : k = "$ref"
    · subst hk
      cases v
      · rw [show rewriteEntries (("$ref", PVal.null) :: rest)
              = ("$ref", PVal.null) :: rewriteEntries rest from rfl,
          findRefsEntries, findRefsEntries, List.map_append, hrec]
        rfl
      · rw [show rewriteEntries (("$ref", PVal.bool _) :: rest)
              = ("$ref", PVal.bool _) :: rewriteEntries rest from rfl,
          findRefsEntries, findRefsEntries, List.map_append, hrec]
        rfl
      · rw [show rewriteEntries (("$ref", PVal.int _) :: rest)
              = ("$ref", PVal.int _) :: rewriteEntries rest from rfl,
          findRefsEntries, findRefsEntries, List.map_append, hrec]
        rfl
      · rw [show rewriteEntries (("$ref", PVal.str _) :: rest)
              = ("$ref", PVal.str (rewriteRef _)) :: rewriteEntries rest from rfl,
          findRefsEntries, findRefsEntries, List.map_append, hrec]
        rfl
      · rw [show rewriteEntries (("$ref", PVal.list _) :: rest)
              = ("$ref", rewrite_internal_refs (PVal.list _)) :: rewriteEntries rest from rfl,
          findRefsEntries, findRefsEntries, List.map_append, hrec,
          find_refs_rewrite (PVal.list _)]
      · rw [show rewriteEntries (("$ref", PVal.dict _) :: rest)
              = ("$ref", rewrite_internal_refs (PVal.dict _)) :: rewriteEntries rest from rfl,
          findRefsEntries, findRefsEntries, List.map_append, hrec,
          find_refs_rewrite (PVal.dict _)]
    · have hb : (k == "$ref") = false := by simpa using hk
      have hstep : rewriteEntries ((k, v) :: rest) = (k, rewrite_internal_refs v) :: rewriteEntries rest := by
        cases v <;> simp [rewriteEntries, hb]
      rw [hstep, findRefsEntries, findRefsEntries, List.map_append, hrec, find_refs_rewrite v]

theorem findRefsList_rewrite (l : List PVal) :
    findRefsList (rewriteList l) = (findRefsList l).map rewriteRef := by
  cases l with
  | nil => rfl
  | cons x xs =>
    rw [rewriteList, findRefsList, findRefsList, List.map_append,
      find_refs_rewrite x, findRefsList_rewrite xs]
end

theorem takeWhile_append_hash (rest : List Char) :
    ∀ p : List Char, '#' ∉ p →
      (p ++ '#' :: rest).takeWhile (fun c => c != '#') = p := by
  intro p
  induction p with
  | nil => intro _; simp [List.takeWhile]
  | cons c cs ih =>
    intro h
    have hc : c ≠ '#' := fun he => h (he ▸ List.mem_cons_self _ _)
    have hcs : '#' ∉ cs := fun hm => h (List.mem_cons_of_mem _ hm)
    simp only [List.cons_append, List.takeWhile_cons]
    have : (c != '#') = true := by simpa using hc
    rw [this]
    simp only [if_true]
    rw [ih hcs]

/-- C1 amended: `rewrite_internal_refs` rewrites exactly the reference
strings, elementwise by `rewriteRef`; a reference already beginning with
`#` (in particular every internal `#/...` reference) is left unchanged;
and every reference of the external shape `<nonempty #-free path>#/<t>`
(with `t` nonempty and newline-free) is rewritten to `#/<t>`.  References
matching neither shape — for example a bare path with no `#/` fragment —
pass through `rewriteRef` unchanged, so such external references survive
in the output (see the counterexample). -/
theorem rewrite_refs_spec :
    (∀ v, find_refs (rewrite_internal_refs v) = (find_refs v).map rewriteRef)
    ∧ (∀ l : List Char, rewriteRef (String.mk ('#' :: l)) = String.mk ('#' :: l))
    ∧ (∀ p t : List Char, p ≠ [] → '#' ∉ p → t ≠ [] → '\n' ∉ t →
        rewriteRef (String.mk (p ++ '#' :: '/' :: t)) = String.mk ('#' :: '/' :: t)) := by
  refine ⟨find_refs_rewrite, ?_, ?_⟩
  · intro l
    rw [rewriteRef]
    have : refMatchCore (String.mk ('#' :: l)).data = none := by
      rw [show (String.mk ('#' :: l)).data = '#' :: l from rfl, refMatchCore]
      simp [List.takeWhile]
    rw [this]
  · intro p t hp hhash ht hnl
    rw [rewriteRef]
    have hdata : (String.mk (p ++ '#' :: '/' :: t)).data = p ++ '#' :: '/' :: t := rfl
    have htake : (p ++ '#' :: '/' :: t).takeWhile (fun c => c != '#') = p :=
      takeWhile_append_hash _ p hhash
    have hmatch : refMatchCore (p ++ '#' :: '/' :: t) = some t := by
      rw [refMatchCore]
      simp only [htake]
      have hne : p.isEmpty = false := by
        cases p with
        | nil => exact absurd rfl hp
        | cons a l => rfl
      rw [hne]
      simp only [Bool.false_eq_true, if_false, List.drop_left]
      have hlast : (t.getLast? == some '\n') = false := by
        cases hg : t.getLast? with
        | none => rfl
        | some c =>
          have hc : c ∈ t := List.mem_of_getLast?_eq_some hg
          have : c ≠ '\n' := fun he => hnl (he ▸ hc)
          simpa using this
      rw [hlast]
      simp only [Bool.false_eq_true, if_false]
      have hemp : t.isEmpty = false := by
        cases t with
        | nil => exact absurd rfl ht
        | cons a l => rfl
      rw [hemp]
      have hany : (t.any fun c => c == '\n') = false := by
        rw [List.any_eq_false]
        intro c hc
        have : c ≠ '\n' := fun he => hnl (he ▸ hc)
        simpa using this
      simp only [Bool.false_eq_true, if_false, hany]
    rw [hdata, hmatch]

/-- C1 counterexample to the claim as stated: a `$ref` of the external
form `other.yaml` (no `#/` fragment) survives `merge_docs` followed by
`rewrite_internal_refs` unchanged, so not every reference in the output
matches `^#/`. -/
theorem rewrite_refs_counterexample :
    (match merge_docs [PVal.dict [("components", PVal.dict [("schemas", PVal.dict
        [("A", PVal.dict [("$ref", PVal.str "other.yaml")])])])]] with
     | Except.ok v => find_refs (rewrite_internal_refs v)
     | Except.error _ => []) = ["other.yaml"]
    ∧ strStartsWith "other.yaml" "#/" = false := by
  constructor <;> decide

/-- C1 witness: a concrete external reference with a `#/` fragment is
rewritten to the internal form. -/
theorem rewrite_refs_spec_witness :
    rewriteRef (String.mk ("x.yaml".data ++ '#' :: '/' :: "components/schemas/F".data))
      = String.mk ('#' :: '/' :: "components/schemas/F".data) :=
  rewrite_refs_spec.2.2 "x.yaml".data "components/schemas/F".data
    (by decide) (by decide) (by decide) (by decide)

/-- C6 amended: `split_concatenated_docs` returns the whole text as one
fragment when no line starts with `openapi:` at column 0; otherwise it
returns one fragment per such line — the first taken from the very
beginning of the text (so non-newline content before the first header,
including a byte-order mark, is retained), each later one from its header
to the next header, the last extending to the end of the text — except
that every fragment is stripped of leading and trailing newline
characters, so leading blank lines before the first header are NOT
retained (see the counterexample). -/
theorem split_docs_spec :
    (∀ text : List Char, startsOf text = [] → split_concatenated_docs text = [text])
    ∧ (∀ text : List Char, startsOf text ≠ [] →
        (split_concatenated_docs text).length = (startsOf text).length)
    ∧ (∀ text : List Char, startsOf text ≠ [] →
        (split_concatenated_docs text).get? 0
          = some (stripNl (text.take (((startsOf text).get? 1).getD text.length))))
    ∧ (∀ (text : List Char) (i : Nat), 0 < i → i < (startsOf text).length →
        (split_concatenated_docs text).get? i
          = some (stripNl ((text.drop ((startsOf text).getD i 0)).take
              (((startsOf text).get? (i + 1)).getD text.length - (startsOf text).getD i 0)))) := by
  refine ⟨?_, ?_, ?_, ?_⟩
  · intro text h
    unfold split_concatenated_docs
    rw [h]
    rfl
  · intro text h
    unfold split_concatenated_docs
    have he : (startsOf text).isEmpty = false := by
      cases hs : startsOf text with
      | nil => exact absurd hs h
      | cons a l => rfl
    simp only [he, Bool.false_eq_true, if_false, List.length_map, List.length_range]
  · intro text h
    unfold split_concatenated_docs
    have he : (startsOf text).isEmpty = false := by
      cases hs : startsOf text with
      | nil => exact absurd hs h
      | cons a l => rfl
    have hlen : 0 < (startsOf text).length := by
      cases hs : startsOf text with
      | nil => exact absurd hs h
      | cons a l => simp
    simp only [he, Bool.false_eq_true, if_false, List.get?_map, List.get?_range hlen,
      Option.map_some']
    rfl
  · intro text i hi hlen
    unfold split_concatenated_docs
    have he : (startsOf text).isEmpty = false := by
      cases hs : startsOf text with
      | nil => simp [hs] at hlen
      | cons a l => rfl
    have hne : (i == 0) = false := by
      cases i with
      | zero => exact absurd rfl (Nat.ne_of_gt hi)
      | succ n => rfl
    simp only [he, Bool.false_eq_true, if_false, List.get?_map, List.get?_range hlen,
      Option.map_some', hne]

/-- C6 counterexample to the claim as stated: a leading blank line before
the first `openapi:` header is stripped from the first fragment, not
retained. -/
theorem split_docs_counterexample :
    split_concatenated_docs "\nopenapi: 3".toList = ["openapi: 3".toList]
    ∧ "\nopenapi: 3".toList ≠ "openapi: 3".toList := by
  constructor <;> decide

/-- C6 witness: the first fragment of a text with non-newline leading
content runs from the beginning of the text. -/
theorem split_docs_spec_witness :
    (split_concatenated_docs "junk\nopenapi: 3".toList).get? 0
      = some (stripNl ("junk\nopenapi: 3".toList.take
          (((startsOf "junk\nopenapi: 3".toList).get? 1).getD "junk\nopenapi: 3".toList.length))) :=
  split_docs_spec.2.2.1 "junk\nopenapi: 3".toList (by decide)

/-! Lemmas for `detect_cycles`. -/

theorem mem_listUnion {x : String} {c s : List String} :
    x ∈ listUnion c s ↔ x ∈ c ∨ x ∈ s := by
  unfold listUnion
  simp only [List.mem_append, List.mem_filter, Bool.not_eq_true']
  constructor
  · rintro (h | ⟨h, _⟩)
    · exact Or.inl h
    · exact Or.inr h
  · intro h
    by_cases hc : x ∈ c
    · exact Or.inl hc
    · rcases h with h | h
      · exact absurd h hc
      · refine Or.inr ⟨h, ?_⟩
        simpa using hc

theorem lookupNode_mem {g : List (String × List String)} {n : String} {es : List String}
    (h : lookupNode g n = some es) : (n, es) ∈ g := by
  induction g with
  | nil => cases h
  | cons p rest ih =>
    obtain ⟨k, v⟩ := p
    rw [lookupNode] at h
    by_cases hk : k = n
    · subst hk
      rw [if_pos rfl] at h
      injection h with h
      subst h
      exact List.mem_cons_self _ _
    · rw [if_neg hk] at h
      exact List.mem_cons_of_mem _ (ih h)

theorem edgesOf_subset_nodes {g : List (String × List String)} {n x : String}
    (h : x ∈ edgesOf g n) : x ∈ nodesOf g := by
  unfold edgesOf at h
  cases hl : lookupNode g n with
  | none => rw [hl] at h; cases h
  | some es =>
    rw [hl] at h
    have hmem : (n, es) ∈ g := lookupNode_mem hl
    unfold nodesOf
    refine List.mem_append_right _ ?_
    rw [List.mem_flatten]
    exact ⟨es, List.mem_map.mpr ⟨(n, es), hmem, rfl⟩, h⟩

theorem edgesOf_key_mem_nodes {g : List (String × List String)} {n : String} {es : List String}
    (h : lookupNode g n = some es) : n ∈ nodesOf g := by
  unfold nodesOf
  exact List.mem_append_left _ (List.mem_map.mpr ⟨(n, es), lookupNode_mem h, rfl⟩)

/-- Number of graph node names not yet visited: the quantity bounded by
the fuel `detect_cycles` hands to `dfs`. -/
def dfsUnseen (g : List (String × List String)) (s : DfsSt) : Nat :=
  (nodesOf g).countP (fun x => decide (x ∉ s.visited))

theorem dfsUnseen_lt_fuelOf (g : List (String × List String)) (s : DfsSt) :
    dfsUnseen g s < fuelOf g :=
  Nat.lt_succ_of_le (List.countP_le_length _)

theorem dfsUnseen_anti (g : List (String × List String)) {s s' : DfsSt}
    (h : s.visited ⊆ s'.visited) : dfsUnseen g s' ≤ dfsUnseen g s := by
  apply List.countP_mono_left
  intro a _ hp
  simp only [decide_eq_true_eq] at hp ⊢
  exact fun hmem => hp (h hmem)

theorem dfsUnseen_cons_lt {g : List (String × List String)} {s : DfsSt} {n : String}
    (hn : n ∈ nodesOf g) (hv : n ∉ s.visited) :
    dfsUnseen g ⟨n :: s.visited, n :: s.stack, s.cyc⟩ < dfsUnseen g s :=
  countP_notmem_cons_lt hn hv

/-- A generic preservation principle for the `dfs` fold over successor
lists. -/
theorem foldl_dfs_pres {P : DfsSt → Prop} (g : List (String × List String)) (fuel : Nat)
    (hstep : ∀ n s, P s → P (dfs g fuel n s)) :
    ∀ (l : List String) (s : DfsSt), P s → P (l.foldl (fun st nxt => dfs g fuel nxt st) s) := by
  intro l
  induction l with
  | nil => intro s h; exact h
  | cons x xs ih => intro s h; exact ih _ (hstep x s h)

theorem dfs_visited_mono (g : List (String × List String)) :
    ∀ (fuel : Nat) (n : String) (s : DfsSt), s.visited ⊆ (dfs g fuel n s).visited := by
  intro fuel
  induction fuel with
  | zero => intro n s; exact fun _ h => h
  | succ f ih =>
    intro n s
    rw [dfs]
    by_cases h1 : n ∈ s.stack
    · rw [if_pos h1]
      exact fun _ h => h
    · rw [if_neg h1]
      by_cases h2 : n ∈ s.visited
      · rw [if_pos h2]
        exact fun _ h => h
      · rw [if_neg h2]
        intro x hx
        have step : ∀ (m : String) (t : DfsSt), x ∈ t.visited → x ∈ (dfs g f m t).visited :=
          fun m t ht => ih m t ht
        have : x ∈ ((edgesOf g n).foldl (fun st nxt => dfs g f nxt st)
            ⟨n :: s.visited, n :: s.stack, s.cyc⟩).visited := by
          refine foldl_dfs_pres g f (P := fun t => x ∈ t.visited) ?_ _ _ ?_
          · exact step
          · exact List.mem_cons_of_mem _ hx
        exact this

theorem dfs_cyc_mono (g : List (String × List String)) :
    ∀ (fuel : Nat) (n : String) (s : DfsSt) {x : String}, x ∈ s.cyc → x ∈ (dfs g fuel n s).cyc := by
  intro fuel
  induction fuel with
  | zero => intro n s x h; exact h
  | succ f ih =>
    intro n s x h
    rw [dfs]
    by_cases h1 : n ∈ s.stack
    · rw [if_pos h1]
      exact mem_listUnion.mpr (Or.inl h)
    · rw [if_neg h1]
      by_cases h2 : n ∈ s.visited
      · rw [if_pos h2]
        exact h
      · rw [if_neg h2]
        refine foldl_dfs_pres g f (P := fun t => x ∈ t.cyc) ?_ _ _ h
        exact fun m t ht => ih m t ht

theorem dfs_stack_pres (g : List (String × List String)) :
    ∀ (fuel : Nat) (n : String) (s : DfsSt) {x : String}, x ∈ s.stack → x ∈ (dfs g fuel n s).stack := by
  intro fuel
  induction fuel with
  | zero => intro n s x h; exact h
  | succ f ih =>
    intro n s x h
    rw [dfs]
    by_cases h1 : n ∈ s.stack
    · rw [if_pos h1]
      exact h
    · rw [if_neg h1]
      by_cases h2 : n ∈ s.visited
      · rw [if_pos h2]
        exact h
      · rw [if_neg h2]
        have hxn : x ≠ n := fun he => h1 (he ▸ h)
        have hfold : x ∈ ((edgesOf g n).foldl (fun st nxt => dfs g f nxt st)
            ⟨n :: s.visited, n :: s.stack, s.cyc⟩).stack := by
          refine foldl_dfs_pres g f (P := fun t => x ∈ t.stack) ?_ _ _ ?_
          · exact fun m t ht => ih m t ht
          · exact List.mem_cons_of_mem _ h
        exact (List.mem_erase_of_ne hxn).mpr hfold

theorem dfs_stack_sub_visited (g : List (String × List String)) :
    ∀ (fuel : Nat) (n : String) (s : DfsSt), s.stack ⊆ s.visited →
      (dfs g fuel n s).stack ⊆ (dfs g fuel n s).visited := by
  intro fuel
  induction fuel with
  | zero => intro n s h; exact h
  | succ f ih =>
    intro n s h
    rw [dfs]
    by_cases h1 : n ∈ s.stack
    · rw [if_pos h1]; exact h
    · rw [if_neg h1]
      by_cases h2 : n ∈ s.visited
      · rw [if_pos h2]; exact h
      · rw [if_neg h2]
        have hfold : ((edgesOf g n).foldl (fun st nxt => dfs g f nxt st)
              ⟨n :: s.visited, n :: s.stack, s.cyc⟩).stack ⊆
            ((edgesOf g n).foldl (fun st nxt => dfs g f nxt st)
              ⟨n :: s.visited, n :: s.stack, s.cyc⟩).visited := by
          refine foldl_dfs_pres g f (P := fun t => t.stack ⊆ t.visited) ?_ _ _ ?_
          · exact fun m t ht => ih m t ht
          · exact List.cons_subset_cons _ h
        intro x hx
        dsimp only at hx ⊢
        exact hfold (List.erase_subset _ _ hx)

theorem dfs_visits (g : List (String × List String)) (f : Nat) (n : String) (s : DfsSt)
    (hsv : s.stack ⊆ s.visited) : n ∈ (dfs g (f + 1) n s).visited := by
  rw [dfs]
  by_cases h1 : n ∈ s.stack
  · rw [if_pos h1]
    exact hsv h1
  · rw [if_neg h1]
    by_cases h2 : n ∈ s.visited
    · rw [if_pos h2]
      exact h2
    · rw [if_neg h2]
      have : n ∈ (⟨n :: s.visited, n :: s.stack, s.cyc⟩ : DfsSt).visited := List.mem_cons_self _ _
      refine foldl_dfs_pres g f (P := fun t => n ∈ t.visited) ?_ _ _ this
      exact fun m t ht => dfs_visited_mono g f m t ht

theorem dfsUnseen_dfs_le (g : List (String × List String)) (fuel : Nat) (n : String) (s : DfsSt) :
    dfsUnseen g (dfs g fuel n s) ≤ dfsUnseen g s :=
  dfsUnseen_anti g (dfs_visited_mono g fuel n s)

theorem dfs_noedge_pres (g : List (String × List String)) (n0 : String)
    (hne : edgesOf g n0 = []) :
    ∀ (fuel : Nat) (n : String) (s : DfsSt), n0 ∉ s.stack → n0 ∉ s.cyc →
      n0 ∉ (dfs g fuel n s).stack ∧ n0 ∉ (dfs g fuel n s).cyc := by
  intro fuel
  induction fuel with
  | zero => intro n s h1 h2; exact ⟨h1, h2⟩
  | succ f ih =>
    intro n s hst hcy
    rw [dfs]
    by_cases h1 : n ∈ s.stack
    · rw [if_pos h1]
      refine ⟨hst, ?_⟩
      intro hmem
      rcases mem_listUnion.mp hmem with h | h
      · exact hcy h
      · exact hst h
    · rw [if_neg h1]
      by_cases h2 : n ∈ s.visited
      · rw [if_pos h2]; exact ⟨hst, hcy⟩
      · rw [if_neg h2]
        by_cases hn : n = n0
        · subst hn
          simp only [hne, List.foldl_nil]
          rw [List.erase_cons_head]
          exact ⟨hst, hcy⟩
        · have hini : n0 ∉ (⟨n :: s.visited, n :: s.stack, s.cyc⟩ : DfsSt).stack := by
            intro hmem
            rcases List.mem_cons.mp hmem with he | hmem'
            · exact hn he.symm
            · exact hst hmem'
          have hfold : n0 ∉ ((edgesOf g n).foldl (fun st nxt => dfs g f nxt st)
                ⟨n :: s.visited, n :: s.stack, s.cyc⟩).stack ∧
              n0 ∉ ((edgesOf g n).foldl (fun st nxt => dfs g f nxt st)
                ⟨n :: s.visited, n :: s.stack, s.cyc⟩).cyc := by
            refine foldl_dfs_pres g f (P := fun t => n0 ∉ t.stack ∧ n0 ∉ t.cyc) ?_ _ _ ⟨hini, hcy⟩
            exact fun m t ht => ih m t ht.1 ht.2
          dsimp only
          refine ⟨?_, hfold.2⟩
          intro hmem
          exact hfold.1 (List.erase_subset _ _ hmem)

theorem dfs_selfloop_inv (g : List (String × List String)) (A : String)
    (hA : A ∈ edgesOf g A) :
    ∀ (fuel : Nat) (n : String) (s : DfsSt), dfsUnseen g s < fuel →
      s.stack ⊆ s.visited → (A ∈ s.visited → A ∈ s.cyc) →
      (A ∈ (dfs g fuel n s).visited → A ∈ (dfs g fuel n s).cyc) := by
  intro fuel
  induction fuel with
  | zero => intro n s hf; exact absurd hf (Nat.not_lt_zero _)
  | succ f ih =>
    intro n s hf hsv hinv
    rw [dfs]
    by_cases h1 : n ∈ s.stack
    · rw [if_pos h1]
      dsimp only
      intro hv
      exact mem_listUnion.mpr (Or.inl (hinv hv))
    · rw [if_neg h1]
      by_cases h2 : n ∈ s.visited
      · rw [if_pos h2]; exact hinv
      · rw [if_neg h2]
        by_cases hnA : n = A
        · subst hnA
          have hAnode : n ∈ nodesOf g := edgesOf_subset_nodes hA
          have hpos : 1 ≤ dfsUnseen g s := by
            apply List.countP_pos.mpr
            exact ⟨n, hAnode, by simpa using h2⟩
          have hf1 : 1 ≤ f := by omega
          obtain ⟨f', rfl⟩ : ∃ f', f = f' + 1 := ⟨f - 1, by omega⟩
          obtain ⟨l1, l2, hsplit⟩ := List.append_of_mem hA
          rw [hsplit]
          dsimp only
          rw [List.foldl_append, List.foldl_cons]
          intro _
          have hmidstack : n ∈ (l1.foldl (fun st nxt => dfs g (f' + 1) nxt st)
              ⟨n :: s.visited, n :: s.stack, s.cyc⟩).stack := by
            refine foldl_dfs_pres g (f' + 1) (P := fun t => n ∈ t.stack) ?_ _ _
              (List.mem_cons_self _ _)
            exact fun m t ht => dfs_stack_pres g (f' + 1) m t ht
          have hcycA : n ∈ (dfs g (f' + 1) n (l1.foldl (fun st nxt => dfs g (f' + 1) nxt st)
              ⟨n :: s.visited, n :: s.stack, s.cyc⟩)).cyc := by
            rw [dfs, if_pos hmidstack]
            exact mem_listUnion.mpr (Or.inr hmidstack)
          refine foldl_dfs_pres g (f' + 1) (P := fun t => n ∈ t.cyc) ?_ _ _ hcycA
          exact fun m t ht => dfs_cyc_mono g (f' + 1) m t ht
        · cases hl : lookupNode g n with
          | none =>
            have hedges : edgesOf g n = [] := by unfold edgesOf; rw [hl]; rfl
            simp only [hedges, List.foldl_nil]
            intro hv
            rcases List.mem_cons.mp hv with he | hv'
            · exact absurd he.symm hnA
            · exact hinv hv'
          | some es =>
            have hkey : n ∈ nodesOf g := edgesOf_key_mem_nodes hl
            have hmu : dfsUnseen g (⟨n :: s.visited, n :: s.stack, s.cyc⟩ : DfsSt) <
                dfsUnseen g s := dfsUnseen_cons_lt hkey h2
            have hfold : ∀ (l : List String) (t : DfsSt),
                dfsUnseen g t < f → t.stack ⊆ t.visited → (A ∈ t.visited → A ∈ t.cyc) →
                  (A ∈ (l.foldl (fun st nxt => dfs g f nxt st) t).visited →
                    A ∈ (l.foldl (fun st nxt => dfs g f nxt st) t).cyc) ∧
                  dfsUnseen g (l.foldl (fun st nxt => dfs g f nxt st) t) < f ∧
                  (l.foldl (fun st nxt => dfs g f nxt st) t).stack ⊆
                    (l.foldl (fun st nxt => dfs g f nxt st) t).visited := by
              intro l
              induction l with
              | nil => intro t ht1 ht2 ht3; exact ⟨ht3, ht1, ht2⟩
              | cons x xs ihl =>
                intro t ht1 ht2 ht3
                simp only [List.foldl_cons]
                apply ihl
                · exact Nat.lt_of_le_of_lt (dfsUnseen_dfs_le g f x t) ht1
                · exact dfs_stack_sub_visited g f x t ht2
                · exact ih x t ht1 ht2 ht3
            have hs1v : (⟨n :: s.visited, n :: s.stack, s.cyc⟩ : DfsSt).stack ⊆
                (⟨n :: s.visited, n :: s.stack, s.cyc⟩ : DfsSt).visited :=
              List.cons_subset_cons _ hsv
            have hs1inv : A ∈ (⟨n :: s.visited, n :: s.stack, s.cyc⟩ : DfsSt).visited →
                A ∈ (⟨n :: s.visited, n :: s.stack, s.cyc⟩ : DfsSt).cyc := by
              intro hv
              rcases List.mem_cons.mp hv with he | hv'
              · exact absurd he.symm hnA
              · exact hinv hv'
            obtain ⟨hres, _, _⟩ := hfold (edgesOf g n)
              ⟨n :: s.visited, n :: s.stack, s.cyc⟩ (by omega) hs1v hs1inv
            dsimp only
            exact hres

theorem detect_cycles_selfloop {g : List (String × List String)} {A : String}
    (hA : A ∈ edgesOf g A) : A ∈ detect_cycles g := by
  have hes : ∃ es, (A, es) ∈ g := by
    unfold edgesOf at hA
    cases hl : lookupNode g A with
    | none => rw [hl] at hA; cases hA
    | some es => exact ⟨es, lookupNode_mem hl⟩
  obtain ⟨es, hmem⟩ := hes
  have main : ∀ (l : List (String × List String)) (t : DfsSt),
      (A ∈ t.visited → A ∈ t.cyc) → t.stack ⊆ t.visited →
      ((A ∈ (l.foldl (fun s p => dfs g (fuelOf g) p.1 s) t).visited →
          A ∈ (l.foldl (fun s p => dfs g (fuelOf g) p.1 s) t).cyc) ∧
        ((A, es) ∈ l ∨ A ∈ t.visited →
          A ∈ (l.foldl (fun s p => dfs g (fuelOf g) p.1 s) t).visited)) := by
    intro l
    induction l with
    | nil =>
      intro t h1 _
      refine ⟨h1, ?_⟩
      rintro (h | h)
      · cases h
      · exact h
    | cons p ps ih =>
      intro t h1 h2
      simp only [List.foldl_cons]
      have h1' : A ∈ (dfs g (fuelOf g) p.1 t).visited → A ∈ (dfs g (fuelOf g) p.1 t).cyc :=
        dfs_selfloop_inv g A hA (fuelOf g) p.1 t (dfsUnseen_lt_fuelOf g t) h2 h1
      have h2' : (dfs g (fuelOf g) p.1 t).stack ⊆ (dfs g (fuelOf g) p.1 t).visited :=
        dfs_stack_sub_visited g (fuelOf g) p.1 t h2
      obtain ⟨c1, c3⟩ := ih (dfs g (fuelOf g) p.1 t) h1' h2'
      refine ⟨c1, ?_⟩
      rintro (h | h)
      · rcases List.mem_cons.mp h with he | hps
        · subst he
          exact c3 (Or.inr (dfs_visits g (nodesOf g).length A t h2))
        · exact c3 (Or.inl hps)
      · exact c3 (Or.inr (dfs_visited_mono g (fuelOf g) p.1 t h))
  have hfin := main g ⟨[], [], []⟩
    (fun h => absurd h (List.not_mem_nil _)) (List.nil_subset _)
  unfold detect_cycles
  exact hfin.1 (hfin.2 (Or.inl hmem))

theorem detect_cycles_noedge {g : List (String × List String)} {n0 : String}
    (hne : edgesOf g n0 = []) : n0 ∉ detect_cycles g := by
  have main : ∀ (l : List (String × List String)) (t : DfsSt),
      n0 ∉ t.stack → n0 ∉ t.cyc →
      n0 ∉ (l.foldl (fun s p => dfs g (fuelOf g) p.1 s) t).stack ∧
      n0 ∉ (l.foldl (fun s p => dfs g (fuelOf g) p.1 s) t).cyc := by
    intro l
    induction l with
    | nil => intro t h1 h2; exact ⟨h1, h2⟩
    | cons p ps ih =>
      intro t h1 h2
      simp only [List.foldl_cons]
      obtain ⟨d1, d2⟩ := dfs_noedge_pres g n0 hne (fuelOf g) p.1 t h1 h2
      exact ih _ d1 d2
  unfold detect_cycles
  exact (main g ⟨[], [], []⟩ (List.not_mem_nil _) (List.not_mem_nil _)).2

/-- A schemas mapping whose single schema `A` references itself. -/
def selfLoopSchemas : Entries :=
  [("A", PVal.dict [("$ref", PVal.str "#/components/schemas/A")])]

/-- A schemas mapping forming the reference chain A→B→C→A. -/
def chainSchemas : Entries :=
  [("A", PVal.dict [("$ref", PVal.str "#/components/schemas/B")]),
   ("B", PVal.dict [("$ref", PVal.str "#/components/schemas/C")]),
   ("C", PVal.dict [("$ref", PVal.str "#/components/schemas/A")])]


/-- C3: `detect_cycles` reports every schema with a direct self-reference as
cyclic; on the reference chain A→B→C→A (built by `schema_graph`) it reports
all three names; a schema with no internal refs (no outgoing edges) is never
reported as cyclic; and whenever `dfs` reaches a vertex already on the
current recursion stack, every vertex on that stack is added to the cyclic
set, not only the endpoints of the closing edge. -/
theorem detect_cycles_spec :
    (∀ (g : List (String × List String)) (A : String),
        A ∈ edgesOf g A → A ∈ detect_cycles g)
    ∧ detect_cycles (schema_graph chainSchemas) = ["C", "B", "A"]
    ∧ (∀ (g : List (String × List String)) (n : String),
        edgesOf g n = [] → n ∉ detect_cycles g)
    ∧ (∀ (g : List (String × List String)) (fuel : Nat) (node : String) (s : DfsSt),
        node ∈ s.stack → ∀ x ∈ s.stack, x ∈ (dfs g (fuel + 1) node s).cyc) := by
  refine ⟨?_, by decide, ?_, ?_⟩
  · intro g A hA
    exact detect_cycles_selfloop hA
  · intro g n hne
    exact detect_cycles_noedge hne
  · intro g fuel node s hnode x hx
    rw [dfs, if_pos hnode]
    exact mem_listUnion.mpr (Or.inr hx)

theorem detect_cycles_spec_witness :
    "A" ∈ detect_cycles (schema_graph selfLoopSchemas)
    ∧ "D" ∉ detect_cycles (schema_graph chainSchemas)
    ∧ "B" ∈ (dfs [] 1 "A" ⟨["A", "B"], ["A", "B"], []⟩).cyc :=
  ⟨detect_cycles_spec.1 (schema_graph selfLoopSchemas) "A" (by decide),
   detect_cycles_spec.2.2.1 (schema_graph chainSchemas) "D" (by decide),
   detect_cycles_spec.2.2.2 [] 0 "A" ⟨["A", "B"], ["A", "B"], []⟩ (by decide) "B" (by decide)⟩

/-! Lemmas for `schema_depth`. -/

theorem schema_depthS_reenter (h : Heap) (i : Nat) (seen : List Nat) (hmem : i ∈ seen) :
    (schema_depthS h (HVal.ref i) seen).1 = (0, seen) := by
  rw [schema_depthS]
  rw [dif_pos hmem]

theorem schema_depthS_nonref (h : Heap) (v : HVal) (seen : List Nat)
    (hv : ∀ i, v ≠ HVal.ref i) : (schema_depthS h v seen).1 = (0, seen) := by
  cases v with
  | ref i => exact absurd rfl (hv i)
  | null => rw [schema_depthS]; intro j hj; cases hj
  | str s => rw [schema_depthS]; intro j hj; cases hj
  | int n => rw [schema_depthS]; intro j hj; cases hj
  | list l => rw [schema_depthS]; intro j hj; cases hj

theorem schema_depthS_missing (h : Heap) (i : Nat) (seen : List Nat)
    (hmem : i ∉ seen) (hl : lookupHeap h i = none) :
    (schema_depthS h (HVal.ref i) seen).1 = (0, i :: seen) := by
  rw [schema_depthS]
  rw [dif_neg hmem]
  split
  · rfl
  · rename_i heq
    rw [hl] at heq
    cases heq

theorem schema_depthS_fresh (h : Heap) (i : Nat) (seen : List Nat)
    (entries : List (String × HVal))
    (hmem : i ∉ seen) (hl : lookupHeap h i = some entries) :
    (schema_depthS h (HVal.ref i) seen).1 =
      (depthListS h (depthChildren h entries) (i :: seen)).1 := by
  rw [schema_depthS]
  rw [dif_neg hmem]
  split
  · rename_i heq
    rw [hl] at heq
    cases heq
  · rename_i entries' heq
    rw [hl] at heq
    cases heq
    rcases hq : depthListS h (depthChildren h entries) (i :: seen) with ⟨⟨d, s2⟩, h2⟩
    dsimp only

theorem depthListS_nil (h : Heap) (seen : List Nat) :
    (depthListS h ([] : List HVal) seen).1 = (0, seen) := by
  rw [depthListS]

theorem depthListS_cons (h : Heap) (c : HVal) (cs : List HVal) (seen : List Nat) :
    (depthListS h (c :: cs) seen).1 =
      (max (1 + (schema_depthS h c seen).1.1)
         (depthListS h cs (schema_depthS h c seen).1.2).1.1,
       (depthListS h cs (schema_depthS h c seen).1.2).1.2) := by
  rw [depthListS]

theorem schema_depthS_le (h : Heap) :
    ∀ (N : Nat) (seen : List Nat), unseenCount h seen ≤ N →
      ∀ v, (schema_depthS h v seen).1.1 ≤ unseenCount h seen := by
  intro N
  induction N with
  | zero =>
    intro seen hN v
    cases v with
    | ref i =>
      by_cases hmem : i ∈ seen
      · rw [schema_depthS_reenter h i seen hmem]
        exact Nat.zero_le _
      · cases hl : lookupHeap h i with
        | none =>
          rw [schema_depthS_missing h i seen hmem hl]
          exact Nat.zero_le _
        | some entries =>
          exfalso
          have hpos : 0 < unseenCount h seen :=
            List.countP_pos.mpr ⟨i, lookupHeap_some_mem hl, by simpa using hmem⟩
          omega
    | null => rw [schema_depthS_nonref h _ seen (by intro j hj; cases hj)]; exact Nat.zero_le _
    | str s => rw [schema_depthS_nonref h _ seen (by intro j hj; cases hj)]; exact Nat.zero_le _
    | int n => rw [schema_depthS_nonref h _ seen (by intro j hj; cases hj)]; exact Nat.zero_le _
    | list l => rw [schema_depthS_nonref h _ seen (by intro j hj; cases hj)]; exact Nat.zero_le _
  | succ n ih =>
    intro seen hN v
    cases v with
    | ref i =>
      by_cases hmem : i ∈ seen
      · rw [schema_depthS_reenter h i seen hmem]
        exact Nat.zero_le _
      · cases hl : lookupHeap h i with
        | none =>
          rw [schema_depthS_missing h i seen hmem hl]
          exact Nat.zero_le _
        | some entries =>
          rw [schema_depthS_fresh h i seen entries hmem hl]
          have hlt : unseenCount h (i :: seen) < unseenCount h seen :=
            unseenCount_cons_lt h (lookupHeap_some_mem hl) hmem
          have QL : ∀ (l : List HVal) (s' : List Nat), unseenCount h s' ≤ n →
              (depthListS h l s').1.1 ≤ 1 + unseenCount h s' := by
            intro l
            induction l with
            | nil =>
              intro s' _
              rw [depthListS_nil]
              exact Nat.zero_le _
            | cons c cs ihl =>
              intro s' hs'
              rw [depthListS_cons]
              apply Nat.max_le.mpr
              constructor
              · have := ih s' hs' c
                omega
              · have hsub : s' ⊆ (schema_depthS h c s').1.2 := (schema_depthS h c s').2
                have hle : unseenCount h ((schema_depthS h c s').1.2) ≤ unseenCount h s' :=
                  unseenCount_anti h hsub
                have := ihl ((schema_depthS h c s').1.2) (le_trans hle hs')
                omega
          have := QL (depthChildren h entries) (i :: seen) (by omega)
          omega
    | null => rw [schema_depthS_nonref h _ seen (by intro j hj; cases hj)]; exact Nat.zero_le _
    | str s => rw [schema_depthS_nonref h _ seen (by intro j hj; cases hj)]; exact Nat.zero_le _
    | int n => rw [schema_depthS_nonref h _ seen (by intro j hj; cases hj)]; exact Nat.zero_le _
    | list l => rw [schema_depthS_nonref h _ seen (by intro j hj; cases hj)]; exact Nat.zero_le _

/-- An arena holding a single dict (address 0) whose `items` entry refers
back to itself: the Python object graph `d = {"items": d}`. -/
def cycHeap : Heap := [(0, [("items", HVal.ref 0)])]

theorem schema_depth_cycHeap : schema_depth cycHeap (HVal.ref 0) [] = (1, [0]) := by
  unfold schema_depth
  have h1 : lookupHeap cycHeap 0 = some [("items", HVal.ref 0)] := rfl
  rw [schema_depthS_fresh cycHeap 0 [] _ (List.not_mem_nil _) h1]
  have hch : depthChildren cycHeap [("items", HVal.ref 0)] = [HVal.ref 0] := rfl
  rw [hch, depthListS_cons,
    schema_depthS_reenter cycHeap 0 [0] (List.mem_cons_self _ _), depthListS_nil]
  rfl

/-- C4: `schema_depth` terminates on every input, including cyclic object
graphs: it is a total function on the arena model; re-entering a dict whose
address is already in the in-progress `seen` set returns depth 0 for that
branch without recursing; the resulting depth never exceeds the number of
arena addresses not already in `seen` (so recursion into dicts is bounded
by the finite object graph); and on the self-referential `{"items": d}`
object it returns depth 1 with the dict's address consumed. -/
theorem schema_depth_terminates :
    (∀ (h : Heap) (i : Nat) (seen : List Nat), i ∈ seen →
        schema_depth h (HVal.ref i) seen = (0, seen))
    ∧ (∀ (h : Heap) (v : HVal) (seen : List Nat),
        (schema_depth h v seen).1 ≤ unseenCount h seen)
    ∧ schema_depth cycHeap (HVal.ref 0) [] = (1, [0]) := by
  refine ⟨?_, ?_, schema_depth_cycHeap⟩
  · intro h i seen hmem
    exact schema_depthS_reenter h i seen hmem
  · intro h v seen
    exact schema_depthS_le h (unseenCount h seen) seen (le_refl _) v

theorem schema_depth_terminates_witness :
    5 ∈ [5] ∧ schema_depth [] (HVal.ref 5) [5] = (0, [5]) :=
  ⟨by decide, schema_depth_terminates.1 [] 5 [5] (by decide)⟩

/-! Lemmas for the composite score. -/

theorem log10_nonneg {x : ℝ} (hx : 1 ≤ x) : 0 ≤ log10 x := by
  unfold log10
  exact div_nonneg (Real.log_nonneg hx) (le_of_lt (Real.log_pos (by norm_num)))

theorem log10_pos {x : ℝ} (hx : 1 < x) : 0 < log10 x := by
  unfold log10
  exact div_pos (Real.log_pos hx) (Real.log_pos (by norm_num))

theorem log10_mono {x y : ℝ} (hx : 1 ≤ x) (hxy : x ≤ y) : log10 x ≤ log10 y := by
  unfold log10
  have hlog : Real.log x ≤ Real.log y := by
    gcongr
  have hd : (0 : ℝ) < Real.log 10 := Real.log_pos (by norm_num)
  gcongr

theorem div_mono_num {a b c : ℝ} (hc : 0 < c) (h : a ≤ b) : a / c ≤ b / c := by
  gcongr

theorem norm_log_nonneg (x k : ℝ) : 0 ≤ norm_log x k := by
  unfold norm_log
  split
  · exact le_refl 0
  · rename_i hk
    push_neg at hk
    refine le_min (by norm_num) ?_
    refine div_nonneg ?_ ?_
    · exact log10_nonneg (by have := le_max_left (0 : ℝ) x; linarith)
    · exact le_of_lt (log10_pos (by linarith))

theorem norm_log_le_one (x k : ℝ) : norm_log x k ≤ 1 := by
  unfold norm_log
  split
  · norm_num
  · exact min_le_left _ _

theorem norm_log_mono {x x' : ℝ} (k : ℝ) (h : x ≤ x') : norm_log x k ≤ norm_log x' k := by
  unfold norm_log
  split
  · exact le_refl 0
  · rename_i hk
    push_neg at hk
    refine min_le_min (le_refl 1) ?_
    refine div_mono_num (log10_pos (by linarith)) ?_
    refine log10_mono (by have := le_max_left (0 : ℝ) x; linarith) ?_
    have := max_le_max (le_refl (0 : ℝ)) h
    linarith

theorem minDiv_nonneg {v c : ℝ} (hv : 0 ≤ v) (hc : 0 < c) : 0 ≤ min 1 (v / c) :=
  le_min (by norm_num) (div_nonneg hv hc.le)

theorem minDiv_le_one (v c : ℝ) : min 1 (v / c) ≤ 1 := min_le_left _ _

theorem minDiv_mono {v v' : ℝ} (c : ℝ) (hc : 0 < c) (h : v ≤ v') :
    min 1 (v / c) ≤ min 1 (v' / c) :=
  min_le_min (le_refl 1) (div_mono_num hc h)

theorem pyRoundInt_mono {x y : ℝ} (hxy : x ≤ y) : pyRoundInt x ≤ pyRoundInt y := by
  unfold pyRoundInt
  dsimp only
  have hf : ⌊x⌋ ≤ ⌊y⌋ := Int.floor_le_floor hxy
  by_cases hnm : ⌊x⌋ = ⌊y⌋
  · rw [← hnm]
    have hrs : x - (⌊x⌋ : ℝ) ≤ y - (⌊x⌋ : ℝ) := by linarith
    split_ifs <;> first | omega | linarith
  · have hlt : ⌊x⌋ < ⌊y⌋ := lt_of_le_of_ne hf hnm
    split_ifs <;> omega

theorem pyRoundInt_intCast (c : ℤ) : pyRoundInt (c : ℝ) = c := by
  unfold pyRoundInt
  dsimp only
  rw [Int.floor_intCast]
  norm_num

theorem round1_mono {x y : ℝ} (h : x ≤ y) : round1 x ≤ round1 y := by
  unfold round1
  have h1 : pyRoundInt (10 * x) ≤ pyRoundInt (10 * y) := pyRoundInt_mono (by linarith)
  have h2 : (pyRoundInt (10 * x) : ℝ) ≤ (pyRoundInt (10 * y) : ℝ) := Int.cast_le.mpr h1
  linarith

theorem round1_bounds {s : ℝ} (h0 : 0 ≤ s) (h100 : s ≤ 100) :
    0 ≤ round1 s ∧ round1 s ≤ 100 := by
  have l0 : pyRoundInt 0 ≤ pyRoundInt (10 * s) := pyRoundInt_mono (by linarith)
  have l1 : pyRoundInt (10 * s) ≤ pyRoundInt 1000 := pyRoundInt_mono (by linarith)
  have e0 : pyRoundInt (0 : ℝ) = 0 := by
    have := pyRoundInt_intCast 0
    simpa using this
  have e1 : pyRoundInt (1000 : ℝ) = 1000 := by
    have := pyRoundInt_intCast 1000
    simpa using this
  rw [e0] at l0
  rw [e1] at l1
  unfold round1
  constructor
  · have : (0 : ℝ) ≤ (pyRoundInt (10 * s) : ℝ) := by exact_mod_cast l0
    linarith
  · have : (pyRoundInt (10 * s) : ℝ) ≤ 1000 := by exact_mod_cast l1
    linarith

/-- C5: the composite score — the weighted sum of the eleven normalized
metrics with weights 22, 18, 12, 8, 8, 10, 4, 3, 8, 4, 3 rounded to one
decimal — lies in [0, 100] whenever the linearly normalized raw metrics are
nonnegative (the log-normalized ones need no hypothesis), and is jointly
monotone: raising any raw metric while others are held fixed never lowers
the score. -/
theorem complexity_score_spec :
    (∀ ops paths schemas refs avgp maxp depth circ unionBr allofT discr : ℝ,
      0 ≤ avgp → 0 ≤ maxp → 0 ≤ depth → 0 ≤ circ →
      0 ≤ unionBr → 0 ≤ allofT → 0 ≤ discr →
      0 ≤ complexity_score ops paths schemas refs avgp maxp depth circ unionBr allofT discr ∧
        complexity_score ops paths schemas refs avgp maxp depth circ unionBr allofT discr ≤ 100)
    ∧ (∀ ops paths schemas refs avgp maxp depth circ unionBr allofT discr
          ops' paths' schemas' refs' avgp' maxp' depth' circ' unionBr' allofT' discr' : ℝ,
        ops ≤ ops' → paths ≤ paths' → schemas ≤ schemas' → refs ≤ refs' →
        avgp ≤ avgp' → maxp ≤ maxp' → depth ≤ depth' → circ ≤ circ' →
        unionBr ≤ unionBr' → allofT ≤ allofT' → discr ≤ discr' →
        complexity_score ops paths schemas refs avgp maxp depth circ unionBr allofT discr ≤
          complexity_score ops' paths' schemas' refs' avgp' maxp' depth' circ' unionBr' allofT'
            discr') := by
  constructor
  · intro ops paths schemas refs avgp maxp depth circ unionBr allofT discr ha hm hd hc hu hl hdi
    unfold complexity_score
    dsimp only
    have b1 := norm_log_nonneg ops 500
    have c1 := norm_log_le_one ops 500
    have b2 := norm_log_nonneg paths 300
    have c2 := norm_log_le_one paths 300
    have b3 := norm_log_nonneg schemas 500
    have c3 := norm_log_le_one schemas 500
    have b4 := norm_log_nonneg refs 2000
    have c4 := norm_log_le_one refs 2000
    have b5 := minDiv_nonneg ha (by norm_num : (0 : ℝ) < 10)
    have c5 := minDiv_le_one avgp 10
    have b6 := minDiv_nonneg hm (by norm_num : (0 : ℝ) < 20)
    have c6 := minDiv_le_one maxp 20
    have b7 := minDiv_nonneg hd (by norm_num : (0 : ℝ) < 10)
    have c7 := minDiv_le_one depth 10
    have b8 := minDiv_nonneg hc (by norm_num : (0 : ℝ) < 10)
    have c8 := minDiv_le_one circ 10
    have b9 := minDiv_nonneg hu (by norm_num : (0 : ℝ) < 100)
    have c9 := minDiv_le_one unionBr 100
    have b10 := minDiv_nonneg hl (by norm_num : (0 : ℝ) < 50)
    have c10 := minDiv_le_one allofT 50
    have b11 := minDiv_nonneg hdi (by norm_num : (0 : ℝ) < 25)
    have c11 := minDiv_le_one discr 25
    exact round1_bounds (by linarith) (by linarith)
  · intro ops paths schemas refs avgp maxp depth circ unionBr allofT discr
      ops' paths' schemas' refs' avgp' maxp' depth' circ' unionBr' allofT' discr'
      h1 h2 h3 h4 h5 h6 h7 h8 h9 h10 h11
    unfold complexity_score
    dsimp only
    apply round1_mono
    have m1 := norm_log_mono 500 h1
    have m2 := norm_log_mono 300 h2
    have m3 := norm_log_mono 500 h3
    have m4 := norm_log_mono 2000 h4
    have m5 := minDiv_mono 10 (by norm_num) h5
    have m6 := minDiv_mono 20 (by norm_num) h6
    have m7 := minDiv_mono 10 (by norm_num) h7
    have m8 := minDiv_mono 10 (by norm_num) h8
    have m9 := minDiv_mono 100 (by norm_num) h9
    have m10 := minDiv_mono 50 (by norm_num) h10
    have m11 := minDiv_mono 25 (by norm_num) h11
    linarith

theorem complexity_score_spec_witness :
    (0 ≤ complexity_score 0 0 0 0 0 0 0 0 0 0 0 ∧
      complexity_score 0 0 0 0 0 0 0 0 0 0 0 ≤ 100)
    ∧ complexity_score 0 0 0 0 0 0 0 0 0 0 0 ≤ complexity_score 1 1 1 1 1 1 1 1 1 1 1 :=
  ⟨complexity_score_spec.1 0 0 0 0 0 0 0 0 0 0 0
      le_rfl le_rfl le_rfl le_rfl le_rfl le_rfl le_rfl,
   complexity_score_spec.2 0 0 0 0 0 0 0 0 0 0 0 1 1 1 1 1 1 1 1 1 1 1
      zero_le_one zero_le_one zero_le_one zero_le_one zero_le_one zero_le_one
      zero_le_one zero_le_one zero_le_one zero_le_one zero_le_one⟩

/-! Lemmas for the polymorphism classification. -/

set_option maxHeartbeats 2000000 in
mutual
theorem polyWalk_P : ∀ (v : PVal) (c : PolyCounts),
    polyHit (polyWalk v c) ↔ (hasPoly v = true ∨ polyHit c)
  | PVal.null, c => by
    show polyHit c ↔ (false = true ∨ polyHit c)
    simp
  | PVal.bool b, c => by
    show polyHit c ↔ (false = true ∨ polyHit c)
    simp
  | PVal.int n, c => by
    show polyHit c ↔ (false = true ∨ polyHit c)
    simp
  | PVal.str s, c => by
    show polyHit c ↔ (false = true ∨ polyHit c)
    simp
  | PVal.list l, c => by
    show polyHit (polyWalkList l c) ↔ (hasPolyList l = true ∨ polyHit c)
    exact polyWalkList_P l c
  | PVal.dict entries, ⟨un, ub, mub, ai, ds, onn, onb, ann, anb⟩ => by
    rw [polyWalk, hasPoly, polyWalkEntries_P entries _]
    rcases Bool.eq_false_or_eq_true (hasPolyEntries entries) with hE | hE <;>
    rcases Bool.eq_false_or_eq_true (hasKey entries "discriminator") with hd | hd <;>
    rcases h1 : lookupKey entries "oneOf" with _ | (_ | b1 | i1 | s1 | l1 | e1) <;>
    rcases h2 : lookupKey entries "anyOf" with _ | (_ | b2 | i2 | s2 | l2 | e2) <;>
    rcases h3 : lookupKey entries "allOf" with _ | (_ | b3 | i3 | s3 | l3 | e3) <;>
    simp only [hE, hd, polyHit, Bool.or_eq_true, decide_eq_true_eq, Option.getD,
      Bool.false_eq_true, Bool.true_eq_false, eq_self_iff_true, if_true, if_false,
      or_false, false_or, true_or, or_true, iff_true, true_iff, iff_false, false_iff] <;>
    omega
termination_by v c => sizeOf v

theorem polyWalkEntries_P : ∀ (es : Entries) (c : PolyCounts),
    polyHit (polyWalkEntries es c) ↔ (hasPolyEntries es = true ∨ polyHit c)
  | [], c => by
    show polyHit c ↔ (false = true ∨ polyHit c)
    simp
  | (k, v) :: rest, c => by
    rw [polyWalkEntries, hasPolyEntries]
    rw [polyWalkEntries_P rest (polyWalk v c), polyWalk_P v c]
    simp only [Bool.or_eq_true]
    tauto
termination_by es c => sizeOf es

theorem polyWalkList_P : ∀ (l : List PVal) (c : PolyCounts),
    polyHit (polyWalkList l c) ↔ (hasPolyList l = true ∨ polyHit c)
  | [], c => by
    show polyHit c ↔ (false = true ∨ polyHit c)
    simp
  | x :: xs, c => by
    rw [polyWalkList, hasPolyList]
    rw [polyWalkList_P xs (polyWalk x c), polyWalk_P x c]
    simp only [Bool.or_eq_true]
    tauto
termination_by l c => sizeOf l
end

theorem count_polymorphism_hasPoly (sch : PVal) :
    polyHit (count_polymorphism sch) ↔ hasPoly sch = true := by
  unfold count_polymorphism
  rw [polyWalk_P]
  have hz : ¬ polyHit PolyCounts.zero := by
    simp [polyHit, PolyCounts.zero]
  tauto

theorem polymorphic_targets_mem (spec : Entries) (n : String) :
    n ∈ polymorphic_component_targets spec ↔
      ∃ sch, (n, sch) ∈ collect_schema_defs spec ∧ hasPoly sch = true := by
  unfold polymorphic_component_targets
  rw [List.mem_map]
  constructor
  · rintro ⟨⟨n', sch⟩, hmem, rfl⟩
    rw [List.mem_filter] at hmem
    refine ⟨sch, hmem.1, ?_⟩
    have hp := hmem.2
    dsimp only at hp
    rw [← count_polymorphism_hasPoly]
    simp only [polyHit]
    simp only [Bool.or_eq_true, decide_eq_true_eq] at hp
    tauto
  · rintro ⟨sch, hmem, hp⟩
    refine ⟨(n, sch), List.mem_filter.mpr ⟨hmem, ?_⟩, rfl⟩
    dsimp only
    have := (count_polymorphism_hasPoly sch).mpr hp
    simp only [polyHit] at this
    simp only [Bool.or_eq_true, decide_eq_true_eq]
    tauto

theorem poly_fold_count (T : List String) : ∀ (rs : List String) (acc : List String),
    (rs.foldl (fun acc r =>
        match schemaRefName r with
        | some t => if t ∈ T then acc ++ [t] else acc
        | none => acc) acc).length =
      acc.length + rs.countP (fun r =>
        match schemaRefName r with
        | some t => decide (t ∈ T)
        | none => false) := by
  intro rs
  induction rs with
  | nil => intro acc; simp
  | cons r rest ih =>
    intro acc
    rw [List.foldl_cons, List.countP_cons]
    cases hr : schemaRefName r with
    | none =>
      simp only [hr]
      rw [ih acc]
      simp
    | some t =>
      simp only [hr]
      by_cases ht : t ∈ T
      · rw [if_pos ht, ih (acc ++ [t])]
        simp [ht]
        omega
      · rw [if_neg ht, ih acc]
        simp [ht]

theorem polymorphicRefCount_eq (spec : Entries) :
    polymorphicRefCount spec = (schemaNodeRefs spec).countP (fun r =>
      match schemaRefName r with
      | some t => decide (t ∈ polymorphic_component_targets spec)
      | none => false) := by
  unfold polymorphicRefCount poly_ref_targets
  rw [poly_fold_count]
  simp

/-- C7: a named component schema is classified as polymorphic exactly when
its definition contains — anywhere in its subtree, not only directly at its
own top level — a node with a `oneOf` list, an `anyOf` list, a nonempty
`allOf` list, or a `discriminator` key (the walk behind the classification
is fully recursive); and the report's polymorphic-reference count counts
exactly the internal schema references, across the whole document, whose
target is one of those classified names. -/
theorem count_polymorphism_classification :
    (∀ (spec : Entries) (n : String),
        n ∈ polymorphic_component_targets spec ↔
          ∃ sch, (n, sch) ∈ collect_schema_defs spec ∧ hasPoly sch = true)
    ∧ (∀ spec : Entries, polymorphicRefCount spec =
        (schemaNodeRefs spec).countP (fun r =>
          match schemaRefName r with
          | some t => decide (t ∈ polymorphic_component_targets spec)
          | none => false)) :=
  ⟨polymorphic_targets_mem, polymorphicRefCount_eq⟩

theorem poly_targets_counterexample :
    polymorphic_component_targets exDoc7 = ["A"]
    ∧ (collect_schema_defs exDoc7).filter (fun nv => topLevelPoly nv.2) = []
    ∧ polymorphicRefCount exDoc7 = 1 := by
  decide

/-! Lemmas for the waveform advisory. -/

theorem isSampleArrayProp_dict {k : String} {v : PVal}
    (h : isSampleArrayProp k v = true) : ∃ vd, v = PVal.dict vd := by
  cases v with
  | dict vd => exact ⟨vd, rfl⟩
  | null => simp [isSampleArrayProp] at h
  | bool b => simp [isSampleArrayProp] at h
  | int n => simp [isSampleArrayProp] at h
  | str s => simp [isSampleArrayProp] at h
  | list l => simp [isSampleArrayProp] at h

theorem sampleArrayProps_inner_nil (ptr : String) (props : Entries) :
    ∀ (a : List SampleProp),
      (props.foldl (fun a kv =>
          if isSampleArrayProp kv.1 kv.2 then
            match kv.2 with
            | PVal.dict vd =>
              let itd := dictOrEmpty (lookupKey vd "items")
              a ++ [⟨ptr, kv.1,
                     (match lookupKey itd "type" with | some (PVal.str t) => t | _ => ""),
                     lookupKey itd "format"⟩]
            | _ => a
          else a) a) = [] ↔
        (a = [] ∧ ∀ kv ∈ props, isSampleArrayProp kv.1 kv.2 = false) := by
  induction props with
  | nil => intro a; simp
  | cons kv rest ih =>
    intro a
    simp only [List.foldl_cons]
    cases hc : isSampleArrayProp kv.1 kv.2 with
    | false =>
      rw [if_neg (by simp [hc])]
      rw [ih a]
      simp [hc]
    | true =>
      rw [if_pos rfl]
      obtain ⟨vd, hvd⟩ := isSampleArrayProp_dict hc
      rw [hvd]
      dsimp only
      rw [ih _]
      simp [hc]

theorem sampleArrayProps_nil (spec : Entries) :
    sampleArrayProps spec = [] ↔
      ∀ ps ∈ iter_schema_nodes spec, ∀ schEntries, ps.2 = PVal.dict schEntries →
        ∀ kv ∈ propsOf schEntries, isSampleArrayProp kv.1 kv.2 = false := by
  unfold sampleArrayProps
  have main : ∀ (nodes : List (String × PVal)) (acc : List SampleProp),
      (nodes.foldl (fun acc ps =>
          match ps.2 with
          | PVal.dict schEntries =>
            acc ++ (propsOf schEntries).foldl
              (fun a kv =>
                if isSampleArrayProp kv.1 kv.2 then
                  match kv.2 with
                  | PVal.dict vd =>
                    let itd := dictOrEmpty (lookupKey vd "items")
                    a ++ [⟨ps.1, kv.1,
                           (match lookupKey itd "type" with | some (PVal.str t) => t | _ => ""),
                           lookupKey itd "format"⟩]
                  | _ => a
                else a) []
          | _ => acc) acc) = [] ↔
        (acc = [] ∧ ∀ ps ∈ nodes, ∀ schEntries, ps.2 = PVal.dict schEntries →
          ∀ kv ∈ propsOf schEntries, isSampleArrayProp kv.1 kv.2 = false) := by
    intro nodes
    induction nodes with
    | nil => intro acc; simp
    | cons p rest ihn =>
      intro acc
      simp only [List.foldl_cons, List.forall_mem_cons]
      cases hp : p.2 with
      | dict schEntries =>
        rw [ihn _]
        rw [List.append_eq_nil]
        rw [sampleArrayProps_inner_nil p.1 (propsOf schEntries) []]
        constructor
        · rintro ⟨⟨h1, h2⟩, h3⟩
          refine ⟨h1, ?_, h3⟩
          intro se hse
          cases hse
          exact h2.2
        · rintro ⟨h1, h2, h3⟩
          exact ⟨⟨h1, ⟨rfl, h2 schEntries rfl⟩⟩, h3⟩
      | null =>
        rw [ihn _]
        constructor
        · rintro ⟨h1, h2⟩
          refine ⟨h1, ?_, h2⟩
          intro se hse
          cases hse
        · rintro ⟨h1, _, h2⟩
          exact ⟨h1, h2⟩
      | bool b =>
        rw [ihn _]
        constructor
        · rintro ⟨h1, h2⟩
          refine ⟨h1, ?_, h2⟩
          intro se hse
          cases hse
        · rintro ⟨h1, _, h2⟩
          exact ⟨h1, h2⟩
      | int n =>
        rw [ihn _]
        constructor
        · rintro ⟨h1, h2⟩
          refine ⟨h1, ?_, h2⟩
          intro se hse
          cases hse
        · rintro ⟨h1, _, h2⟩
          exact ⟨h1, h2⟩
      | str s =>
        rw [ihn _]
        constructor
        · rintro ⟨h1, h2⟩
          refine ⟨h1, ?_, h2⟩
          intro se hse
          cases hse
        · rintro ⟨h1, _, h2⟩
          exact ⟨h1, h2⟩
      | list l =>
        rw [ihn _]
        constructor
        · rintro ⟨h1, h2⟩
          refine ⟨h1, ?_, h2⟩
          intro se hse
          cases hse
        · rintro ⟨h1, _, h2⟩
          exact ⟨h1, h2⟩
  rw [main]
  simp

/-- C8: the waveform advisory fires (`issueDetected = true`) exactly when
some schema node has a top-level property whose name is, case-insensitively,
one of the sample/waveform identifiers and whose value is an array of
number or integer items — regardless of whether a binary or base64
alternative exists anywhere (that fact is reported separately as
`binaryAlternativePresent`, it does not gate the advisory); in particular a
document with a `samples` array-of-number property and no such alternative
yields `issueDetected = true` and `binaryAlternativePresent = false`. -/
theorem waveform_advisory_spec :
    (∀ spec : Entries, waveformIssueDetected spec = true ↔
      ∃ ps ∈ iter_schema_nodes spec, ∃ schEntries, ps.2 = PVal.dict schEntries ∧
        ∃ kv ∈ propsOf schEntries, isSampleArrayProp kv.1 kv.2 = true)
    ∧ (waveformIssueDetected exDoc8good = true ∧ binary_alt_present exDoc8good = false) := by
  constructor
  · intro spec
    have h1 : waveformIssueDetected spec = true ↔ ¬ sampleArrayProps spec = [] := by
      unfold waveformIssueDetected
      simp [List.isEmpty_iff]
    rw [h1, sampleArrayProps_nil]
    push_neg
    simp only [Bool.not_eq_false]
  · exact ⟨by decide, by decide⟩

theorem waveform_advisory_counterexample :
    waveformIssueDetected exDoc8alt = true ∧ binary_alt_present exDoc8alt = true := by
  decide
